import Mathlib

/-!
Verification of the Jasypt PBE compatibility engine (`jasypt_utils.py`).

Bytes are modelled as `List Nat` with every entry `< 256`; text (Python `str`)
is modelled as `List Char` (a sequence of Unicode scalar values, as in Python).
Hash functions are pluggable (`Bytes → Bytes`), mirroring the `hash_algo`
module parameter of `_openssl_kdf`; concrete MD5 / SHA-1 are defined below.
Python exceptions are modelled with `Except` / `Option` results.
-/

namespace Jasypt

abbrev Bytes := List Nat

abbrev Text := List Char

/-- All entries of a byte string are actual bytes. -/
def bytesOk (bs : Bytes) : Prop := ∀ b ∈ bs, b < 256

instance (bs : Bytes) : Decidable (bytesOk bs) := by
  unfold bytesOk; infer_instance

/-! ## Key derivation (`JasyptEncryptor._openssl_kdf`) -/

/-- The `md = data; for _ in range(iterations): md = hash_algo.new(md).digest()`
loop: apply `h` to `d`, `n` times. -/
def iterHash (h : Bytes → Bytes) : Nat → Bytes → Bytes
  | 0, d => d
  | n + 1, d => iterHash h n (h d)

/-- The `while` loop of `_openssl_kdf`.  `m` is the accumulated digest list;
`ps` is `password + salt`; since the loop index `i` always equals `len(m)`,
`m[i-1]` is the last element of `m`.  The loop runs while
`len(b''.join(m)) < key_size + iv_size` (`target`).  `fuel` bounds the number
of further rounds; `none` models the (never reached in practice) case where
the loop would not terminate within the given fuel. -/
def kdfLoop (h : Bytes → Bytes) (iterations : Nat) (ps : Bytes) (target : Nat) :
    Nat → List Bytes → Option (List Bytes)
  | 0, m => if m.flatten.length < target then none else some m
  | fuel + 1, m =>
    if m.flatten.length < target then
      kdfLoop h iterations ps target fuel
        (m ++ [iterHash h iterations
          (match m.getLast? with
           | none => ps
           | some prev => prev ++ ps)])
    else some m

/-- `JasyptEncryptor._openssl_kdf(password, salt, key_size, iv_size, hash_algo,
iterations)`.  `iterations` is a Python `int`; `range(iterations)` performs
`iterations.toNat` hash applications.  The fuel `key_size + iv_size + 1` is
sufficient whenever every round produces a non-empty digest (proved below);
`none` models divergence of the source loop. -/
def openssl_kdf (password salt : Bytes) (key_size iv_size : Nat)
    (hash_algo : Bytes → Bytes) (iterations : Int) : Option (Bytes × Bytes) :=
  (kdfLoop hash_algo iterations.toNat (password ++ salt) (key_size + iv_size)
      (key_size + iv_size + 1) []).map fun m =>
    let ms := m.flatten
    (ms.take key_size, (ms.drop key_size).take iv_size)

/-- The digest sequence `M` exactly as the specification words it: round 0
hashes `password || salt`; round `n+1` hashes `M[n] || password || salt`;
within each round the hash function is applied `iterations` times in total. -/
def specDigest (h : Bytes → Bytes) (iterations : Nat) (password salt : Bytes) :
    Nat → Bytes
  | 0 => iterHash h iterations (password ++ salt)
  | n + 1 => iterHash h iterations
      (specDigest h iterations password salt n ++ password ++ salt)

/-- Concatenation of the first `rounds` digests of the spec's `M` sequence. -/
def specBytes (h : Bytes → Bytes) (iterations : Nat) (password salt : Bytes)
    (rounds : Nat) : Bytes :=
  ((List.range rounds).map (specDigest h iterations password salt)).flatten

/-! ### KDF lemmas -/

theorem iterHash_length {h : Bytes → Bytes} {ds : Nat}
    (hds : ∀ d, (h d).length = ds) :
    ∀ {it : Nat}, 1 ≤ it → ∀ d, (iterHash h it d).length = ds := by
  intro it
  induction it with
  | zero => omega
  | succ n ih =>
    intro _ d
    show (iterHash h n (h d)).length = ds
    cases n with
    | zero => exact hds d
    | succ k => exact ih (by omega) (h d)

theorem specPrefix_concat (h : Bytes → Bytes) (it : Nat) (pw salt : Bytes)
    (k : Nat) :
    (List.range k).map (specDigest h it pw salt) ++ [specDigest h it pw salt k]
      = (List.range (k + 1)).map (specDigest h it pw salt) := by
  rw [List.range_succ, List.map_append]
  rfl

theorem specPrefix_getLast (h : Bytes → Bytes) (it : Nat) (pw salt : Bytes)
    (k : Nat) :
    ((List.range (k + 1)).map (specDigest h it pw salt)).getLast?
      = some (specDigest h it pw salt k) := by
  rw [← specPrefix_concat]
  exact List.getLast?_concat _

theorem specDigest_length {h : Bytes → Bytes} {ds : Nat}
    (hds : ∀ d, (h d).length = ds) {it : Nat} (hit : 1 ≤ it)
    (pw salt : Bytes) (k : Nat) :
    (specDigest h it pw salt k).length = ds := by
  cases k with
  | zero => exact iterHash_length hds hit _
  | succ n => exact iterHash_length hds hit _

theorem specBytes_length {h : Bytes → Bytes} {ds : Nat}
    (hds : ∀ d, (h d).length = ds) {it : Nat} (hit : 1 ≤ it)
    (pw salt : Bytes) (k : Nat) :
    (specBytes h it pw salt k).length = k * ds := by
  induction k with
  | zero => simp [specBytes]
  | succ n ih =>
    unfold specBytes at *
    rw [← specPrefix_concat, List.flatten_append, List.length_append, ih]
    simp [specDigest_length hds hit]
    ring

/-- One round of the loop, started from the first `k` spec digests, appends the
`(k+1)`-st spec digest. -/
theorem kdf_step_digest (h : Bytes → Bytes) (it : Nat) (pw salt : Bytes)
    (k : Nat) :
    iterHash h it
        (match ((List.range k).map (specDigest h it pw salt)).getLast? with
         | none => pw ++ salt
         | some prev => prev ++ (pw ++ salt))
      = specDigest h it pw salt k := by
  cases k with
  | zero => rfl
  | succ n =>
    rw [specPrefix_getLast]
    show iterHash h it (specDigest h it pw salt n ++ (pw ++ salt)) = _
    rw [← List.append_assoc]
    rfl

/-- Main loop lemma: started from the first `k` spec digests with enough fuel,
the loop finishes with exactly the first `n` spec digests, where `n` is the
least number of rounds whose digests reach the target length. -/
theorem kdfLoop_spec {h : Bytes → Bytes} {ds : Nat}
    (hds : ∀ d, (h d).length = ds) (hpos : 0 < ds) {it : Nat} (hit : 1 ≤ it)
    (pw salt : Bytes) (target : Nat)
    (hex : ∃ n, target ≤ n * ds) :
    ∀ fuel k, k ≤ Nat.find hex → Nat.find hex - k ≤ fuel →
      kdfLoop h it (pw ++ salt) target fuel
          ((List.range k).map (specDigest h it pw salt))
        = some ((List.range (Nat.find hex)).map (specDigest h it pw salt)) := by
  intro fuel
  induction fuel with
  | zero =>
    intro k hk hfuel
    have hkn : k = Nat.find hex := by omega
    subst hkn
    have hlen : (((List.range (Nat.find hex)).map
        (specDigest h it pw salt)).flatten).length = Nat.find hex * ds :=
      specBytes_length hds hit pw salt _
    unfold kdfLoop
    rw [if_neg]
    rw [hlen]
    have := Nat.find_spec hex
    omega
  | succ fuel ih =>
    intro k hk hfuel
    by_cases hkn : k = Nat.find hex
    · subst hkn
      have hlen : (((List.range (Nat.find hex)).map
          (specDigest h it pw salt)).flatten).length = Nat.find hex * ds :=
        specBytes_length hds hit pw salt _
      unfold kdfLoop
      rw [if_neg]
      rw [hlen]
      have := Nat.find_spec hex
      omega
    · have hklt : k < Nat.find hex := by omega
      have hkmin : ¬ target ≤ k * ds := Nat.find_min hex hklt
      have hlen : (((List.range k).map
          (specDigest h it pw salt)).flatten).length = k * ds :=
        specBytes_length hds hit pw salt _
      unfold kdfLoop
      rw [if_pos (by omega)]
      rw [kdf_step_digest, specPrefix_concat]
      exact ih (k + 1) (by omega) (by omega)

/-- The number of rounds needed is at most the target length. -/
theorem kdf_rounds_le {ds : Nat} (hpos : 0 < ds) (target : Nat)
    (hex : ∃ n, target ≤ n * ds) : Nat.find hex ≤ target :=
  Nat.find_le (by calc
    target = target * 1 := (Nat.mul_one target).symm
    _ ≤ target * ds := Nat.mul_le_mul (le_refl target) hpos)

/-- `_openssl_kdf` computes exactly the spec's characterization: the least
number of rounds whose digests reach `key_size + iv_size` bytes, and the
key/IV split of their concatenation. -/
theorem openssl_kdf_eq_spec {hash_algo : Bytes → Bytes} {ds : Nat}
    (hds : ∀ d, (hash_algo d).length = ds) (hpos : 0 < ds)
    (password salt : Bytes) (key_size iv_size : Nat) {iterations : Int}
    (hit : 1 ≤ iterations)
    (hex : ∃ n, key_size + iv_size ≤ n * ds) :
    openssl_kdf password salt key_size iv_size hash_algo iterations =
      some ((specBytes hash_algo iterations.toNat password salt
              (Nat.find hex)).take key_size,
            ((specBytes hash_algo iterations.toNat password salt
              (Nat.find hex)).drop key_size).take iv_size) := by
  have hit' : 1 ≤ iterations.toNat := by omega
  unfold openssl_kdf
  have h0 : ((List.range 0).map
      (specDigest hash_algo iterations.toNat password salt)) = [] := rfl
  rw [← h0,
    kdfLoop_spec hds hpos hit' password salt (key_size + iv_size) hex
      (key_size + iv_size + 1) 0 (by omega)
      (by have := kdf_rounds_le hpos (key_size + iv_size) hex; omega)]
  rfl

/-- Totality of the loop: as long as every round appends a non-empty digest,
the loop reaches the target with fuel at least `target - current length`. -/
theorem kdfLoop_total {h : Bytes → Bytes} {it : Nat} {ps : Bytes} {target : Nat}
    (hstep : ∀ m : List Bytes,
      (iterHash h it
        (match m.getLast? with
         | none => ps
         | some prev => prev ++ ps)).length ≠ 0) :
    ∀ fuel m, target ≤ m.flatten.length + fuel →
      ∃ r, kdfLoop h it ps target fuel m = some r ∧
        target ≤ r.flatten.length := by
  intro fuel
  induction fuel with
  | zero =>
    intro m hm
    refine ⟨m, ?_, by omega⟩
    unfold kdfLoop
    rw [if_neg (by omega)]
  | succ fuel ih =>
    intro m hm
    by_cases hlt : m.flatten.length < target
    · have hgrow := hstep m
      have hlen : ∀ x : Bytes,
          (m ++ [x]).flatten.length = m.flatten.length + x.length := by
        intro x
        rw [List.flatten_append, List.length_append]
        simp
      have hres := ih
        (m ++ [iterHash h it
          (match m.getLast? with
           | none => ps
           | some prev => prev ++ ps)])
        (by rw [hlen]; omega)
      obtain ⟨r, hr, hrlen⟩ := hres
      refine ⟨r, ?_, hrlen⟩
      unfold kdfLoop
      rw [if_pos hlt]
      exact hr
    · refine ⟨m, ?_, by omega⟩
      unfold kdfLoop
      rw [if_neg hlt]

/-- Whenever every round appends a non-empty digest, `_openssl_kdf` returns a
key of exactly `key_size` bytes and an IV of exactly `iv_size` bytes. -/
theorem openssl_kdf_lengths {hash_algo : Bytes → Bytes} {iterations : Int}
    (password salt : Bytes) (key_size iv_size : Nat)
    (hstep : ∀ m : List Bytes,
      (iterHash hash_algo iterations.toNat
        (match m.getLast? with
         | none => password ++ salt
         | some prev => prev ++ (password ++ salt))).length ≠ 0) :
    ∃ key iv,
      openssl_kdf password salt key_size iv_size hash_algo iterations
        = some (key, iv) ∧ key.length = key_size ∧ iv.length = iv_size := by
  obtain ⟨r, hr, hrlen⟩ :=
    @kdfLoop_total _ _ _ (key_size + iv_size) hstep
      (key_size + iv_size + 1) [] (by simp)
  refine ⟨r.flatten.take key_size, (r.flatten.drop key_size).take iv_size, ?_, ?_, ?_⟩
  · unfold openssl_kdf
    rw [hr]
    rfl
  · rw [List.length_take]
    omega
  · rw [List.length_take, List.length_drop]
    omega

/-- **C1**: `_openssl_kdf` computes the EVP_BytesToKey scheme: digests
`M[0] = H^it(password || salt)`, `M[n] = H^it(M[n-1] || password || salt)` are
concatenated for the least number of rounds reaching `key_size + iv_size`
bytes, and the result is the `(key_size, iv_size)` split of the
concatenation. -/
theorem kdf_matches_evp_bytes_to_key
    (hash_algo : Bytes → Bytes) (password salt : Bytes)
    (key_size iv_size : Nat) (iterations : Int) (ds : Nat)
    (hds : ∀ d, (hash_algo d).length = ds) (hpos : 0 < ds)
    (hit : 1 ≤ iterations) :
    ∃ rounds : Nat,
      key_size + iv_size
          ≤ (specBytes hash_algo iterations.toNat password salt rounds).length ∧
      (∀ k < rounds,
        (specBytes hash_algo iterations.toNat password salt k).length
          < key_size + iv_size) ∧
      openssl_kdf password salt key_size iv_size hash_algo iterations =
        some ((specBytes hash_algo iterations.toNat password salt rounds).take
                key_size,
              ((specBytes hash_algo iterations.toNat password salt rounds).drop
                key_size).take iv_size) := by
  have hit' : 1 ≤ iterations.toNat := by omega
  have hex : ∃ n, key_size + iv_size ≤ n * ds :=
    ⟨key_size + iv_size, by calc
      key_size + iv_size = (key_size + iv_size) * 1 := (Nat.mul_one _).symm
      _ ≤ (key_size + iv_size) * ds := Nat.mul_le_mul (le_refl _) hpos⟩
  refine ⟨Nat.find hex, ?_, ?_, ?_⟩
  · rw [specBytes_length hds hit']
    exact Nat.find_spec hex
  · intro k hk
    rw [specBytes_length hds hit']
    have := Nat.find_min hex hk
    omega
  · exact openssl_kdf_eq_spec hds hpos password salt key_size iv_size hit hex

/-- A one-byte constant hash function, used as a concrete instance in
witnesses of the hash-generic KDF theorems. -/
def oneHash : Bytes → Bytes := fun _ => [7]

/-- Witness for C1 at a concrete input. -/
theorem kdf_matches_evp_bytes_to_key_witness :
    (∀ d : Bytes, (oneHash d).length = 1) ∧ (0 : Nat) < 1 ∧ (1 : Int) ≤ 1 ∧
    ∃ rounds : Nat,
      2 + 1 ≤ (specBytes oneHash (1 : Int).toNat [1] [2] rounds).length ∧
      (∀ k < rounds,
        (specBytes oneHash (1 : Int).toNat [1] [2] k).length < 2 + 1) ∧
      openssl_kdf [1] [2] 2 1 oneHash 1 =
        some ((specBytes oneHash (1 : Int).toNat [1] [2] rounds).take 2,
              ((specBytes oneHash (1 : Int).toNat [1] [2] rounds).drop 2).take 1) :=
  ⟨fun _ => rfl, Nat.one_pos, le_refl 1,
    kdf_matches_evp_bytes_to_key oneHash [1] [2] 2 1 1 1
      (fun _ => rfl) Nat.one_pos (le_refl 1)⟩

/-- **C9**: for every password and salt with `password ++ salt` non-empty,
every key/IV size, every hash of fixed positive digest size and every positive
iteration count, `_openssl_kdf` terminates with a key of exactly `key_size`
bytes and an IV of exactly `iv_size` bytes. -/
theorem kdf_total (hash_algo : Bytes → Bytes) (password salt : Bytes)
    (key_size iv_size : Nat) (iterations : Int) (ds : Nat)
    (hne : password ++ salt ≠ [])
    (hds : ∀ d, (hash_algo d).length = ds) (hpos : 0 < ds)
    (hit : 0 < iterations) :
    ∃ key iv,
      openssl_kdf password salt key_size iv_size hash_algo iterations
        = some (key, iv) ∧ key.length = key_size ∧ iv.length = iv_size := by
  refine openssl_kdf_lengths password salt key_size iv_size ?_
  intro m
  rw [iterHash_length hds (by omega)]
  omega

/-- Witness for C9 at a concrete input. -/
theorem kdf_total_witness :
    ([1] ++ [2] : Bytes) ≠ [] ∧ (∀ d : Bytes, (oneHash d).length = 1) ∧
    (0 : Nat) < 1 ∧ (0 : Int) < 1000 ∧
    ∃ key iv,
      openssl_kdf [1] [2] 2 1 oneHash 1000 = some (key, iv) ∧
        key.length = 2 ∧ iv.length = 1 :=
  ⟨by decide, fun _ => rfl, Nat.one_pos, by decide,
    kdf_total oneHash [1] [2] 2 1 1000 1 (by decide) (fun _ => rfl)
      Nat.one_pos (by decide)⟩

/-! ## Byte-string helpers shared by the hash functions and the cipher -/

/-- Split a list into consecutive chunks of `n` elements (last chunk may be
shorter); `fuel` is the list length, which bounds the number of chunks. -/
def chunksGo (n : Nat) : Nat → List Nat → List (List Nat)
  | 0, _ => []
  | _ + 1, [] => []
  | fuel + 1, a :: l => (a :: l).take n :: chunksGo n fuel ((a :: l).drop n)

/-- Split a byte string into consecutive chunks of `n` bytes. -/
def chunks (n : Nat) (l : List Nat) : List (List Nat) := chunksGo n l.length l

def bytesOk_append {a b : Bytes} (ha : bytesOk a) (hb : bytesOk b) :
    bytesOk (a ++ b) := by
  intro x hx
  rcases List.mem_append.mp hx with h | h
  · exact ha x h
  · exact hb x h

/-! ## MD5 (RFC 1321), the model of `Crypto.Hash.MD5` -/

/-- `2 ^ 32`. -/
def M32 : Nat := 4294967296

/-- 32-bit left rotation. -/
def rotl32 (x s : Nat) : Nat := ((x <<< s) ||| (x >>> (32 - s))) % M32

/-- MD5 / SHA-1 message padding: `0x80`, zeros to 56 mod 64, then the bit
length in 8 bytes (little-endian for MD5). -/
def md5Pad (msg : Bytes) : Bytes :=
  let z := (64 + 56 - (msg.length + 1) % 64) % 64
  msg ++ [128] ++ List.replicate z 0 ++
    (List.range 8).map (fun i => ((8 * msg.length) >>> (8 * i)) % 256)

/-- Four bytes to a 32-bit word, little-endian. -/
def word32LE (b : Bytes) : Nat :=
  b.getD 0 0 + 256 * b.getD 1 0 + 65536 * b.getD 2 0 + 16777216 * b.getD 3 0

/-- A 32-bit word to four bytes, little-endian. -/
def word32ToBytesLE (w : Nat) : Bytes :=
  [w % 256, (w >>> 8) % 256, (w >>> 16) % 256, (w >>> 24) % 256]

def md5K : List Nat :=
  [0xd76aa478, 0xe8c7b756, 0x242070db, 0xc1bdceee,
   0xf57c0faf, 0x4787c62a, 0xa8304613, 0xfd469501,
   0x698098d8, 0x8b44f7af, 0xffff5bb1, 0x895cd7be,
   0x6b901122, 0xfd987193, 0xa679438e, 0x49b40821,
   0xf61e2562, 0xc040b340, 0x265e5a51, 0xe9b6c7aa,
   0xd62f105d, 0x02441453, 0xd8a1e681, 0xe7d3fbc8,
   0x21e1cde6, 0xc33707d6, 0xf4d50d87, 0x455a14ed,
   0xa9e3e905, 0xfcefa3f8, 0x676f02d9, 0x8d2a4c8a,
   0xfffa3942, 0x8771f681, 0x6d9d6122, 0xfde5380c,
   0xa4beea44, 0x4bdecfa9, 0xf6bb4b60, 0xbebfbc70,
   0x289b7ec6, 0xeaa127fa, 0xd4ef3085, 0x04881d05,
   0xd9d4d039, 0xe6db99e5, 0x1fa27cf8, 0xc4ac5665,
   0xf4292244, 0x432aff97, 0xab9423a7, 0xfc93a039,
   0x655b59c3, 0x8f0ccc92, 0xffeff47d, 0x85845dd1,
   0x6fa87e4f, 0xfe2ce6e0, 0xa3014314, 0x4e0811a1,
   0xf7537e82, 0xbd3af235, 0x2ad7d2bb, 0xeb86d391]

def md5S : List Nat :=
  [7, 12, 17, 22, 7, 12, 17, 22, 7, 12, 17, 22, 7, 12, 17, 22,
   5, 9, 14, 20, 5, 9, 14, 20, 5, 9, 14, 20, 5, 9, 14, 20,
   4, 11, 16, 23, 4, 11, 16, 23, 4, 11, 16, 23, 4, 11, 16, 23,
   6, 10, 15, 21, 6, 10, 15, 21, 6, 10, 15, 21, 6, 10, 15, 21]

/-- The MD5 round function for step `i`. -/
def md5F (i b c d : Nat) : Nat :=
  if i < 16 then (b &&& c) ||| ((4294967295 ^^^ b) &&& d)
  else if i < 32 then (d &&& b) ||| ((4294967295 ^^^ d) &&& c)
  else if i < 48 then b ^^^ c ^^^ d
  else c ^^^ (b ||| (4294967295 ^^^ d))

/-- The message-word index used at step `i`. -/
def md5G (i : Nat) : Nat :=
  if i < 16 then i
  else if i < 32 then (5 * i + 1) % 16
  else if i < 48 then (3 * i + 5) % 16
  else (7 * i) % 16

/-- Pack a byte string into one natural number, first byte least
significant.  Packing blocks and constant tables into single naturals lets the
kernel evaluate the compression function with arithmetic on big literals. -/
def packLE : Bytes → Nat
  | [] => 0
  | b :: rest => b + 256 * packLE rest

/-- Pack a list of 32-bit words into one natural number, first word least
significant. -/
def packWords32 : List Nat → Nat
  | [] => 0
  | w :: rest => w + 4294967296 * packWords32 rest

/-- `md5K` packed with `packWords32` (see `md5KPacked_eq`). -/
def md5KPacked : Nat :=
  0xeb86d3912ad7d2bbbd3af235f7537e824e0811a1a3014314fe2ce6e06fa87e4f85845dd1ffeff47d8f0ccc92655b59c3fc93a039ab9423a7432aff97f4292244c4ac56651fa27cf8e6db99e5d9d4d03904881d05d4ef3085eaa127fa289b7ec6bebfbc70f6bb4b604bdecfa9a4beea44fde5380c6d9d61228771f681fffa39428d2a4c8a676f02d9fcefa3f8a9e3e905455a14edf4d50d87c33707d621e1cde6e7d3fbc8d8a1e68102441453d62f105de9b6c7aa265e5a51c040b340f61e256249b40821a679438efd9871936b901122895cd7beffff5bb18b44f7af698098d8fd469501a83046134787c62af57c0fafc1bdceee242070dbe8c7b756d76aa478

/-- `md5S` packed with one byte per entry (see `md5SPacked_eq`). -/
def md5SPacked : Nat :=
  0x150f0a06150f0a06150f0a06150f0a0617100b0417100b0417100b0417100b04140e0905140e0905140e0905140e090516110c0716110c0716110c0716110c07

theorem md5KPacked_eq : md5KPacked = packWords32 md5K := by decide

theorem md5SPacked_eq :
    md5SPacked = md5S.foldr (fun s acc => s + 256 * acc) 0 := by decide

/-- One MD5 step; `X` is the packed 64-byte block, whose `g`-th little-endian
32-bit word is `(X >>> (32 * g)) % 2^32`. -/
def md5Step (X : Nat) (st : Nat × Nat × Nat × Nat) (i : Nat) :
    Nat × Nat × Nat × Nat :=
  let (a, b, c, d) := st
  let tmp := (a + md5F i b c d + (md5KPacked >>> (32 * i)) % M32
      + (X >>> (32 * md5G i)) % M32) % M32
  (d, (b + rotl32 tmp ((md5SPacked >>> (8 * i)) % 256)) % M32, b, c)

/-- Run steps `i, i+1, ..., i+n-1`. -/
def md5Steps (X : Nat) : Nat → Nat → Nat × Nat × Nat × Nat →
    Nat × Nat × Nat × Nat
  | _, 0, st => st
  | i, n + 1, st => md5Steps X (i + 1) n (md5Step X st i)

def md5Compress (st : Nat × Nat × Nat × Nat) (block : Bytes) :
    Nat × Nat × Nat × Nat :=
  let (a, b, c, d) := md5Steps (packLE block) 0 64 st
  let (a0, b0, c0, d0) := st
  ((a0 + a) % M32, (b0 + b) % M32, (c0 + c) % M32, (d0 + d) % M32)

def md5Init : Nat × Nat × Nat × Nat :=
  (0x67452301, 0xefcdab89, 0x98badcfe, 0x10325476)

/-- `Crypto.Hash.MD5.new(msg).digest()`: the 16-byte MD5 digest. -/
def md5 (msg : Bytes) : Bytes :=
  let (a, b, c, d) := (chunks 64 (md5Pad msg)).foldl md5Compress md5Init
  word32ToBytesLE a ++ word32ToBytesLE b ++ word32ToBytesLE c ++
    word32ToBytesLE d

/-! ## SHA-1 (RFC 3174), the model of `Crypto.Hash.SHA1` -/

/-- MD5 / SHA-1 padding with the bit length stored big-endian (SHA-1). -/
def sha1Pad (msg : Bytes) : Bytes :=
  let z := (64 + 56 - (msg.length + 1) % 64) % 64
  msg ++ [128] ++ List.replicate z 0 ++
    (List.range 8).map (fun i => ((8 * msg.length) >>> (8 * (7 - i))) % 256)

/-- Four bytes to a 32-bit word, big-endian. -/
def word32BE (b : Bytes) : Nat :=
  16777216 * b.getD 0 0 + 65536 * b.getD 1 0 + 256 * b.getD 2 0 + b.getD 3 0

/-- A 32-bit word to four bytes, big-endian. -/
def word32ToBytesBE (w : Nat) : Bytes :=
  [(w >>> 24) % 256, (w >>> 16) % 256, (w >>> 8) % 256, w % 256]

/-- The 80-entry SHA-1 message schedule of one block. -/
def sha1Ws (x : List Nat) : List Nat :=
  (List.range 80).foldl (fun ws t =>
    if t < 16 then ws ++ [x.getD t 0]
    else ws ++ [rotl32
      (ws.getD (t - 3) 0 ^^^ ws.getD (t - 8) 0 ^^^
       ws.getD (t - 14) 0 ^^^ ws.getD (t - 16) 0) 1]) []

def sha1F (t b c d : Nat) : Nat :=
  if t < 20 then (b &&& c) ||| ((4294967295 ^^^ b) &&& d)
  else if t < 40 then b ^^^ c ^^^ d
  else if t < 60 then (b &&& c) ||| (b &&& d) ||| (c &&& d)
  else b ^^^ c ^^^ d

def sha1K (t : Nat) : Nat :=
  if t < 20 then 0x5a827999
  else if t < 40 then 0x6ed9eba1
  else if t < 60 then 0x8f1bbcdc
  else 0xca62c1d6

def sha1Step (ws : List Nat) (st : Nat × Nat × Nat × Nat × Nat) (t : Nat) :
    Nat × Nat × Nat × Nat × Nat :=
  let (a, b, c, d, e) := st
  ((rotl32 a 5 + sha1F t b c d + e + sha1K t + ws.getD t 0) % M32,
   a, rotl32 b 30, c, d)

def sha1Compress (st : Nat × Nat × Nat × Nat × Nat) (block : Bytes) :
    Nat × Nat × Nat × Nat × Nat :=
  let ws := sha1Ws ((chunks 4 block).map word32BE)
  let (a, b, c, d, e) := (List.range 80).foldl (sha1Step ws) st
  let (a0, b0, c0, d0, e0) := st
  ((a0 + a) % M32, (b0 + b) % M32, (c0 + c) % M32, (d0 + d) % M32,
   (e0 + e) % M32)

def sha1Init : Nat × Nat × Nat × Nat × Nat :=
  (0x67452301, 0xefcdab89, 0x98badcfe, 0x10325476, 0xc3d2e1f0)

/-- `Crypto.Hash.SHA1.new(msg).digest()`: the 20-byte SHA-1 digest. -/
def sha1 (msg : Bytes) : Bytes :=
  let (a, b, c, d, e) := (chunks 64 (sha1Pad msg)).foldl sha1Compress sha1Init
  word32ToBytesBE a ++ word32ToBytesBE b ++ word32ToBytesBE c ++
    word32ToBytesBE d ++ word32ToBytesBE e

/-! ## DES (FIPS 46-3), the model of `Crypto.Cipher.DES` -/

def desIP : List Nat :=
  [58, 50, 42, 34, 26, 18, 10, 2, 60, 52, 44, 36, 28, 20, 12, 4,
   62, 54, 46, 38, 30, 22, 14, 6, 64, 56, 48, 40, 32, 24, 16, 8,
   57, 49, 41, 33, 25, 17, 9, 1, 59, 51, 43, 35, 27, 19, 11, 3,
   61, 53, 45, 37, 29, 21, 13, 5, 63, 55, 47, 39, 31, 23, 15, 7]

def desFP : List Nat :=
  [40, 8, 48, 16, 56, 24, 64, 32, 39, 7, 47, 15, 55, 23, 63, 31,
   38, 6, 46, 14, 54, 22, 62, 30, 37, 5, 45, 13, 53, 21, 61, 29,
   36, 4, 44, 12, 52, 20, 60, 28, 35, 3, 43, 11, 51, 19, 59, 27,
   34, 2, 42, 10, 50, 18, 58, 26, 33, 1, 41, 9, 49, 17, 57, 25]

def desE : List Nat :=
  [32, 1, 2, 3, 4, 5, 4, 5, 6, 7, 8, 9, 8, 9, 10, 11, 12, 13,
   12, 13, 14, 15, 16, 17, 16, 17, 18, 19, 20, 21, 20, 21, 22, 23, 24, 25,
   24, 25, 26, 27, 28, 29, 28, 29, 30, 31, 32, 1]

def desP : List Nat :=
  [16, 7, 20, 21, 29, 12, 28, 17, 1, 15, 23, 26, 5, 18, 31, 10,
   2, 8, 24, 14, 32, 27, 3, 9, 19, 13, 30, 6, 22, 11, 4, 25]

def desPC1 : List Nat :=
  [57, 49, 41, 33, 25, 17, 9, 1, 58, 50, 42, 34, 26, 18,
   10, 2, 59, 51, 43, 35, 27, 19, 11, 3, 60, 52, 44, 36,
   63, 55, 47, 39, 31, 23, 15, 7, 62, 54, 46, 38, 30, 22,
   14, 6, 61, 53, 45, 37, 29, 21, 13, 5, 28, 20, 12, 4]

def desPC2 : List Nat :=
  [14, 17, 11, 24, 1, 5, 3, 28, 15, 6, 21, 10,
   23, 19, 12, 4, 26, 8, 16, 7, 27, 20, 13, 2,
   41, 52, 31, 37, 47, 55, 30, 40, 51, 45, 33, 48,
   44, 49, 39, 56, 34, 53, 46, 42, 50, 36, 29, 32]

def desShifts : List Nat := [1, 1, 2, 2, 2, 2, 2, 2, 1, 2, 2, 2, 2, 2, 2, 1]

def desSBoxes : List (List Nat) :=
  [[14, 4, 13, 1, 2, 15, 11, 8, 3, 10, 6, 12, 5, 9, 0, 7,
    0, 15, 7, 4, 14, 2, 13, 1, 10, 6, 12, 11, 9, 5, 3, 8,
    4, 1, 14, 8, 13, 6, 2, 11, 15, 12, 9, 7, 3, 10, 5, 0,
    15, 12, 8, 2, 4, 9, 1, 7, 5, 11, 3, 14, 10, 0, 6, 13],
   [15, 1, 8, 14, 6, 11, 3, 4, 9, 7, 2, 13, 12, 0, 5, 10,
    3, 13, 4, 7, 15, 2, 8, 14, 12, 0, 1, 10, 6, 9, 11, 5,
    0, 14, 7, 11, 10, 4, 13, 1, 5, 8, 12, 6, 9, 3, 2, 15,
    13, 8, 10, 1, 3, 15, 4, 2, 11, 6, 7, 12, 0, 5, 14, 9],
   [10, 0, 9, 14, 6, 3, 15, 5, 1, 13, 12, 7, 11, 4, 2, 8,
    13, 7, 0, 9, 3, 4, 6, 10, 2, 8, 5, 14, 12, 11, 15, 1,
    13, 6, 4, 9, 8, 15, 3, 0, 11, 1, 2, 12, 5, 10, 14, 7,
    1, 10, 13, 0, 6, 9, 8, 7, 4, 15, 14, 3, 11, 5, 2, 12],
   [7, 13, 14, 3, 0, 6, 9, 10, 1, 2, 8, 5, 11, 12, 4, 15,
    13, 8, 11, 5, 6, 15, 0, 3, 4, 7, 2, 12, 1, 10, 14, 9,
    10, 6, 9, 0, 12, 11, 7, 13, 15, 1, 3, 14, 5, 2, 8, 4,
    3, 15, 0, 6, 10, 1, 13, 8, 9, 4, 5, 11, 12, 7, 2, 14],
   [2, 12, 4, 1, 7, 10, 11, 6, 8, 5, 3, 15, 13, 0, 14, 9,
    14, 11, 2, 12, 4, 7, 13, 1, 5, 0, 15, 10, 3, 9, 8, 6,
    4, 2, 1, 11, 10, 13, 7, 8, 15, 9, 12, 5, 6, 3, 0, 14,
    11, 8, 12, 7, 1, 14, 2, 13, 6, 15, 0, 9, 10, 4, 5, 3],
   [12, 1, 10, 15, 9, 2, 6, 8, 0, 13, 3, 4, 14, 7, 5, 11,
    10, 15, 4, 2, 7, 12, 9, 5, 6, 1, 13, 14, 0, 11, 3, 8,
    9, 14, 15, 5, 2, 8, 12, 3, 7, 0, 4, 10, 1, 13, 11, 6,
    4, 3, 2, 12, 9, 5, 15, 10, 11, 14, 1, 7, 6, 0, 8, 13],
   [4, 11, 2, 14, 15, 0, 8, 13, 3, 12, 9, 7, 5, 10, 6, 1,
    13, 0, 11, 7, 4, 9, 1, 10, 14, 3, 5, 12, 2, 15, 8, 6,
    1, 4, 11, 13, 12, 3, 7, 14, 10, 15, 6, 8, 0, 5, 9, 2,
    6, 11, 13, 8, 1, 4, 10, 7, 9, 5, 0, 15, 14, 2, 3, 12],
   [13, 2, 8, 4, 6, 15, 11, 1, 10, 9, 3, 14, 5, 0, 12, 7,
    1, 15, 13, 8, 10, 3, 7, 4, 12, 5, 6, 11, 0, 14, 9, 2,
    7, 11, 4, 1, 9, 12, 14, 2, 0, 6, 10, 13, 15, 3, 5, 8,
    2, 1, 14, 7, 4, 10, 8, 13, 15, 12, 9, 0, 3, 5, 6, 11]]

/-- A byte as 8 bits, most significant first. -/
def byteToBits (b : Nat) : List Nat :=
  [(b >>> 7) &&& 1, (b >>> 6) &&& 1, (b >>> 5) &&& 1, (b >>> 4) &&& 1,
   (b >>> 3) &&& 1, (b >>> 2) &&& 1, (b >>> 1) &&& 1, b &&& 1]

def bytesToBits (bs : Bytes) : List Nat := (bs.map byteToBits).flatten

def bitsToByte (l : List Nat) : Nat := l.foldl (fun acc b => 2 * acc + b) 0

def bitsToBytes (bits : List Nat) : Bytes := (chunks 8 bits).map bitsToByte

/-- Apply a DES permutation / selection table (1-based entries). -/
def applyPerm (table : List Nat) (bits : List Nat) : List Nat :=
  table.map fun i => bits.getD (i - 1) 0

def xorBits (a b : List Nat) : List Nat := List.zipWith (fun x y => x ^^^ y) a b

/-- All entries are single bits. -/
def bitsOk (l : List Nat) : Prop := ∀ x ∈ l, x < 2

instance (l : List Nat) : Decidable (bitsOk l) := by
  unfold bitsOk; infer_instance

/-- S-box `j` applied to a 6-bit group. -/
def desSRow (j : Nat) (g : List Nat) : Nat :=
  let row := 2 * g.getD 0 0 + g.getD 5 0
  let col := 8 * g.getD 1 0 + 4 * g.getD 2 0 + 2 * g.getD 3 0 + g.getD 4 0
  (desSBoxes.getD j []).getD (16 * row + col) 0

/-- A 4-bit value as 4 bits, most significant first. -/
def nibbleBits (v : Nat) : List Nat :=
  [(v >>> 3) &&& 1, (v >>> 2) &&& 1, (v >>> 1) &&& 1, v &&& 1]

/-- The DES round function `f` on a 32-bit half and a 48-bit subkey. -/
def desF (r k : List Nat) : List Nat :=
  let x := xorBits (applyPerm desE r) k
  applyPerm desP
    (((List.range 8).map fun j =>
      nibbleBits (desSRow j ((x.drop (6 * j)).take 6))).flatten)

/-- Left-rotate a bit list. -/
def rotBits (l : List Nat) (n : Nat) : List Nat := l.drop n ++ l.take n

/-- The 16 48-bit DES subkeys of an 8-byte key. -/
def desKeySchedule (key : Bytes) : List (List Nat) :=
  let kb := applyPerm desPC1 (bytesToBits key)
  (desShifts.foldl
    (fun (st : List Nat × List Nat × List (List Nat)) s =>
      let (c, d, acc) := st
      let c2 := rotBits c s
      let d2 := rotBits d s
      (c2, d2, acc ++ [applyPerm desPC2 (c2 ++ d2)]))
    (kb.take 28, kb.drop 28, [])).2.2

/-- The 16 Feistel rounds. -/
def desRounds : List (List Nat) → List Nat × List Nat → List Nat × List Nat
  | [], s => s
  | k :: ks, (l, r) => desRounds ks (r, xorBits l (desF r k))

/-- DES on one 8-byte block with a given subkey sequence (encryption uses the
schedule in order, decryption in reverse order). -/
def desRaw (subkeys : List (List Nat)) (block : Bytes) : Bytes :=
  let b := applyPerm desIP (bytesToBits block)
  let s := desRounds subkeys (b.take 32, b.drop 32)
  bitsToBytes (applyPerm desFP (s.2 ++ s.1))

def desEncryptBlock (key block : Bytes) : Bytes :=
  desRaw (desKeySchedule key) block

def desDecryptBlock (key block : Bytes) : Bytes :=
  desRaw (desKeySchedule key).reverse block

/-! ### DES lemmas -/

theorem applyPerm_length (t bits : List Nat) :
    (applyPerm t bits).length = t.length := List.length_map t _

theorem xorBits_length (a b : List Nat) :
    (xorBits a b).length = min a.length b.length := List.length_zipWith _ a b

theorem desF_length (r k : List Nat) : (desF r k).length = 32 := by
  unfold desF
  rw [applyPerm_length]
  rfl

theorem xorBits_cancel :
    ∀ (a b : List Nat), a.length ≤ b.length → xorBits (xorBits a b) b = a := by
  intro a
  induction a with
  | nil => intro b _; rfl
  | cons x xs ih =>
    intro b hb
    cases b with
    | nil => simp at hb
    | cons y ys =>
      show (x ^^^ y ^^^ y) :: xorBits (xorBits xs ys) ys = x :: xs
      rw [Nat.xor_cancel_right, ih ys (by simpa using hb)]

theorem desRounds_lengths :
    ∀ (ks : List (List Nat)) (l r : List Nat),
      l.length = 32 → r.length = 32 →
      (desRounds ks (l, r)).1.length = 32 ∧ (desRounds ks (l, r)).2.length = 32 := by
  intro ks
  induction ks with
  | nil => intro l r hl hr; exact ⟨hl, hr⟩
  | cons k ks ih =>
    intro l r hl hr
    show (desRounds ks (r, xorBits l (desF r k))).1.length = 32 ∧ _
    exact ih r (xorBits l (desF r k))
      hr (by rw [xorBits_length, desF_length]; omega)

theorem desRounds_append (k1 k2 : List (List Nat)) :
    ∀ s, desRounds (k1 ++ k2) s = desRounds k2 (desRounds k1 s) := by
  induction k1 with
  | nil => intro s; rfl
  | cons k ks ih =>
    intro s
    rcases s with ⟨l, r⟩
    show desRounds (ks ++ k2) (r, xorBits l (desF r k)) = _
    exact ih (r, xorBits l (desF r k))

theorem desRounds_reverse :
    ∀ (ks : List (List Nat)) (l r : List Nat),
      l.length = 32 → r.length = 32 →
      desRounds ks.reverse (Prod.swap (desRounds ks (l, r))) = (r, l) := by
  intro ks
  induction ks with
  | nil => intro l r _ _; rfl
  | cons k ks ih =>
    intro l r hl hr
    have hx : (xorBits l (desF r k)).length = 32 := by
      rw [xorBits_length, desF_length]; omega
    rw [List.reverse_cons, desRounds_append]
    show desRounds [k]
        (desRounds ks.reverse
          (Prod.swap (desRounds ks (r, xorBits l (desF r k))))) = (r, l)
    rw [ih r (xorBits l (desF r k)) hr hx]
    show (r, xorBits (xorBits l (desF r k)) (desF r k)) = (r, l)
    rw [xorBits_cancel l (desF r k) (by rw [desF_length]; omega)]

theorem getD_map_getD (f : Nat → Nat) (t : List Nat) (i : Nat)
    (h : i < t.length) : (t.map f).getD i 0 = f (t.getD i 0) := by
  rw [List.getD_eq_getElem _ _ (by simpa using h), List.getD_eq_getElem _ _ h]
  exact List.getElem_map f

/-- Composing two selection tables, provided the outer indices stay inside the
inner table. -/
theorem applyPerm_applyPerm (t1 t2 bits : List Nat)
    (h : ∀ i ∈ t2, i - 1 < t1.length) :
    applyPerm t2 (applyPerm t1 bits)
      = applyPerm (t2.map fun i => t1.getD (i - 1) 0) bits := by
  unfold applyPerm
  rw [List.map_map]
  apply List.map_congr_left
  intro i hi
  simp only [Function.comp_apply]
  exact getD_map_getD _ t1 (i - 1) (h i hi)

/-- Applying the identity table `[1, ..., n]` to a list of length `n`. -/
theorem applyPerm_id (bits : List Nat) (n : Nat) (h : bits.length = n) :
    applyPerm ((List.range n).map fun i => i + 1) bits = bits := by
  unfold applyPerm
  rw [List.map_map]
  have he : ((fun i => bits.getD (i - 1) 0) ∘ fun i => i + 1)
      = fun i => bits.getD i 0 := by
    funext i
    simp
  rw [he]
  subst h
  apply List.ext_get
  · simp
  · intro i h1 h2
    rw [List.get_eq_getElem, List.get_eq_getElem]
    rw [List.getElem_map, List.getElem_range,
      List.getD_eq_getElem bits 0 h2]

theorem desFP_desIP (bits : List Nat) (h : bits.length = 64) :
    applyPerm desFP (applyPerm desIP bits) = bits := by
  rw [applyPerm_applyPerm desIP desFP bits (by decide)]
  rw [show desFP.map (fun i => desIP.getD (i - 1) 0)
      = (List.range 64).map (fun i => i + 1) by decide]
  exact applyPerm_id bits 64 h

theorem desIP_desFP (bits : List Nat) (h : bits.length = 64) :
    applyPerm desIP (applyPerm desFP bits) = bits := by
  rw [applyPerm_applyPerm desFP desIP bits (by decide)]
  rw [show desIP.map (fun i => desFP.getD (i - 1) 0)
      = (List.range 64).map (fun i => i + 1) by decide]
  exact applyPerm_id bits 64 h

/-! ### Bit and byte conversion lemmas -/

theorem getD_lt_two {bits : List Nat} (h : bitsOk bits) (j : Nat) :
    bits.getD j 0 < 2 := by
  by_cases hj : j < bits.length
  · rw [List.getD_eq_getElem bits 0 hj]
    exact h _ (bits.getElem_mem hj)
  · rw [List.getD_eq_getElem?_getD, List.getElem?_eq_none (by omega)]
    decide

theorem bitsOk_applyPerm {bits : List Nat} (t : List Nat) (h : bitsOk bits) :
    bitsOk (applyPerm t bits) := by
  intro x hx
  obtain ⟨i, _, hi⟩ := List.mem_map.mp hx
  rw [← hi]
  exact getD_lt_two h _

theorem bitsOk_byteToBits (b : Nat) : bitsOk (byteToBits b) := by
  intro x hx
  simp only [byteToBits, List.mem_cons, List.not_mem_nil, or_false] at hx
  rcases hx with h | h | h | h | h | h | h | h <;>
    (subst h; rw [Nat.and_one_is_mod]; omega)

theorem bitsOk_nibbleBits (v : Nat) : bitsOk (nibbleBits v) := by
  intro x hx
  simp only [nibbleBits, List.mem_cons, List.not_mem_nil, or_false] at hx
  rcases hx with h | h | h | h <;>
    (subst h; rw [Nat.and_one_is_mod]; omega)

theorem bitsOk_flatten {L : List (List Nat)} (h : ∀ x ∈ L, bitsOk x) :
    bitsOk L.flatten := by
  intro x hx
  obtain ⟨l, hl, hxl⟩ := List.mem_flatten.mp hx
  exact h l hl x hxl

theorem bitsOk_bytesToBits (bs : Bytes) : bitsOk (bytesToBits bs) := by
  apply bitsOk_flatten
  intro x hx
  obtain ⟨b, _, hb⟩ := List.mem_map.mp hx
  rw [← hb]
  exact bitsOk_byteToBits b

theorem bitsOk_take {l : List Nat} (n : Nat) (h : bitsOk l) :
    bitsOk (l.take n) := fun x hx => h x (List.take_subset n l hx)

theorem bitsOk_drop {l : List Nat} (n : Nat) (h : bitsOk l) :
    bitsOk (l.drop n) := fun x hx => h x (List.drop_subset n l hx)

theorem bitsOk_append {a b : List Nat} (ha : bitsOk a) (hb : bitsOk b) :
    bitsOk (a ++ b) := by
  intro x hx
  rcases List.mem_append.mp hx with h | h
  · exact ha x h
  · exact hb x h

theorem bitsOk_xorBits :
    ∀ {a b : List Nat}, bitsOk a → bitsOk b → bitsOk (xorBits a b) := by
  intro a
  induction a with
  | nil => intro b _ _; intro x hx; simp [xorBits] at hx
  | cons x xs ih =>
    intro b ha hb
    cases b with
    | nil => intro y hy; simp [xorBits] at hy
    | cons y ys =>
      intro z hz
      rcases List.mem_cons.mp hz with h | h
      · subst h
        have hx2 : x < 2 := ha x (List.mem_cons_self x xs)
        have hy2 : y < 2 := hb y (List.mem_cons_self y ys)
        exact @Nat.xor_lt_two_pow _ _ 1 hx2 hy2
      · exact ih (fun u hu => ha u (List.mem_cons_of_mem x hu))
          (fun u hu => hb u (List.mem_cons_of_mem y hu)) z h

theorem bitsOk_desF (r k : List Nat) : bitsOk (desF r k) := by
  apply bitsOk_applyPerm
  apply bitsOk_flatten
  intro x hx
  obtain ⟨j, _, hj⟩ := List.mem_map.mp hx
  rw [← hj]
  exact bitsOk_nibbleBits _

theorem bitsOk_desRounds :
    ∀ (ks : List (List Nat)) (l r : List Nat), bitsOk l → bitsOk r →
      bitsOk (desRounds ks (l, r)).1 ∧ bitsOk (desRounds ks (l, r)).2 := by
  intro ks
  induction ks with
  | nil => intro l r hl hr; exact ⟨hl, hr⟩
  | cons k ks ih =>
    intro l r hl hr
    exact ih r (xorBits l (desF r k)) hr
      (bitsOk_xorBits hl (bitsOk_desF r k))

theorem bitsToByte_lt {l : List Nat} (h : bitsOk l) :
    bitsToByte l < 2 ^ l.length := by
  suffices hgen : ∀ (l : List Nat), bitsOk l → ∀ acc,
      l.foldl (fun acc b => 2 * acc + b) acc < (acc + 1) * 2 ^ l.length by
    have := hgen l h 0
    simpa [bitsToByte] using this
  intro l
  induction l with
  | nil => intro _ acc; simpa using Nat.lt_succ_self acc
  | cons b bs ih =>
    intro hok acc
    have hb : b < 2 := hok b (List.mem_cons_self b bs)
    have := ih (fun u hu => hok u (List.mem_cons_of_mem b hu)) (2 * acc + b)
    calc (b :: bs).foldl (fun acc b => 2 * acc + b) acc
        = bs.foldl (fun acc b => 2 * acc + b) (2 * acc + b) := rfl
      _ < (2 * acc + b + 1) * 2 ^ bs.length := this
      _ ≤ (2 * acc + 2) * 2 ^ bs.length := by
          have : 2 * acc + b + 1 ≤ 2 * acc + 2 := by omega
          exact Nat.mul_le_mul_right _ this
      _ = (acc + 1) * 2 ^ (bs.length + 1) := by ring
      _ = (acc + 1) * 2 ^ (b :: bs).length := rfl

/-- `chunksGo` ignores extra fuel. -/
theorem chunksGo_fuel {n : Nat} (hn : 0 < n) :
    ∀ (fuel1 fuel2 : Nat) (l : List Nat), l.length ≤ fuel1 → l.length ≤ fuel2 →
      chunksGo n fuel1 l = chunksGo n fuel2 l := by
  intro fuel1
  induction fuel1 with
  | zero =>
    intro fuel2 l h1 _
    have : l = [] := List.eq_nil_of_length_eq_zero (by omega)
    subst this
    cases fuel2 <;> rfl
  | succ f ih =>
    intro fuel2 l h1 h2
    cases l with
    | nil => cases fuel2 <;> rfl
    | cons a l =>
      cases fuel2 with
      | zero => simp at h2
      | succ f2 =>
        show ((a :: l).take n :: chunksGo n f ((a :: l).drop n))
            = ((a :: l).take n :: chunksGo n f2 ((a :: l).drop n))
        have hd : ((a :: l).drop n).length = (a :: l).length - n := by
          rw [List.length_drop]
        rw [ih f2 ((a :: l).drop n) (by simp at h1 ⊢; omega)
          (by simp at h2 ⊢; omega)]

/-- Unfolding one chunk. -/
theorem chunks_cons {n : Nat} (hn : 0 < n) (l : List Nat) (hl : l ≠ []) :
    chunks n l = l.take n :: chunks n (l.drop n) := by
  cases l with
  | nil => exact absurd rfl hl
  | cons a l =>
    show chunksGo n (a :: l).length (a :: l) = _
    have : (a :: l).length = l.length + 1 := rfl
    rw [this]
    show (a :: l).take n :: chunksGo n l.length ((a :: l).drop n)
      = (a :: l).take n :: chunks n ((a :: l).drop n)
    unfold chunks
    rw [chunksGo_fuel hn l.length ((a :: l).drop n).length ((a :: l).drop n)
      (by rw [List.length_drop]; simp; omega) (le_refl _)]

/-- Splitting a flattened list of equal-length chunks recovers the chunks. -/
theorem chunks_flatten {n : Nat} (hn : 0 < n) :
    ∀ (L : List (List Nat)), (∀ x ∈ L, x.length = n) →
      chunks n L.flatten = L := by
  intro L
  induction L with
  | nil => intro _; rfl
  | cons x L ih =>
    intro h
    have hx : x.length = n := h x (List.mem_cons_self x L)
    have hne2 : (x :: L).flatten ≠ [] := by
      simp only [List.flatten_cons]
      intro hcon
      have hlen := congrArg List.length hcon
      rw [List.length_append] at hlen
      simp only [List.length_nil] at hlen
      omega
    rw [chunks_cons hn _ hne2]
    simp only [List.flatten_cons]
    have htake : (x ++ L.flatten).take n = x := by
      rw [List.take_append_eq_append_take, ← hx, List.take_length,
        Nat.sub_self, List.take_zero, List.append_nil]
    have hdrop : (x ++ L.flatten).drop n = L.flatten := by
      rw [List.drop_append_eq_append_drop, ← hx, List.drop_length,
        Nat.sub_self, List.drop_zero, List.nil_append]
    rw [htake, hdrop, ih fun y hy => h y (List.mem_cons_of_mem x hy)]

theorem byteToBits_bitsToByte8 (b0 b1 b2 b3 b4 b5 b6 b7 : Nat)
    (h0 : b0 < 2) (h1 : b1 < 2) (h2 : b2 < 2) (h3 : b3 < 2)
    (h4 : b4 < 2) (h5 : b5 < 2) (h6 : b6 < 2) (h7 : b7 < 2) :
    byteToBits (bitsToByte [b0, b1, b2, b3, b4, b5, b6, b7])
      = [b0, b1, b2, b3, b4, b5, b6, b7] := by
  have hv : bitsToByte [b0, b1, b2, b3, b4, b5, b6, b7]
      = 128 * b0 + 64 * b1 + 32 * b2 + 16 * b3 + 8 * b4 + 4 * b5
        + 2 * b6 + b7 := by
    show 2 * (2 * (2 * (2 * (2 * (2 * (2 * (2 * 0 + b0) + b1) + b2) + b3)
        + b4) + b5) + b6) + b7 = _
    ring
  rw [hv]
  simp only [byteToBits, Nat.and_one_is_mod, Nat.shiftRight_eq_div_pow,
    List.cons.injEq, and_true]
  norm_num
  refine ⟨?_, ?_, ?_, ?_, ?_, ?_, ?_, ?_⟩ <;> omega

theorem byteToBits_bitsToByte {l : List Nat} (h : bitsOk l)
    (hl : l.length = 8) : byteToBits (bitsToByte l) = l := by
  rcases l with _ | ⟨b0, l⟩
  · simp at hl
  rcases l with _ | ⟨b1, l⟩
  · simp at hl
  rcases l with _ | ⟨b2, l⟩
  · simp at hl
  rcases l with _ | ⟨b3, l⟩
  · simp at hl
  rcases l with _ | ⟨b4, l⟩
  · simp at hl
  rcases l with _ | ⟨b5, l⟩
  · simp at hl
  rcases l with _ | ⟨b6, l⟩
  · simp at hl
  rcases l with _ | ⟨b7, l⟩
  · simp at hl
  rcases l with _ | ⟨b8, l⟩
  · exact byteToBits_bitsToByte8 b0 b1 b2 b3 b4 b5 b6 b7
      (h b0 (by simp)) (h b1 (by simp)) (h b2 (by simp)) (h b3 (by simp))
      (h b4 (by simp)) (h b5 (by simp)) (h b6 (by simp)) (h b7 (by simp))
  · simp at hl

theorem bitsToByte_byteToBits {b : Nat} (hb : b < 256) :
    bitsToByte (byteToBits b) = b := by
  show 2 * (2 * (2 * (2 * (2 * (2 * (2 * (2 * 0 + ((b >>> 7) &&& 1))
      + ((b >>> 6) &&& 1)) + ((b >>> 5) &&& 1)) + ((b >>> 4) &&& 1))
      + ((b >>> 3) &&& 1)) + ((b >>> 2) &&& 1)) + ((b >>> 1) &&& 1))
      + (b &&& 1) = b
  simp only [Nat.and_one_is_mod, Nat.shiftRight_eq_div_pow]
  norm_num
  omega

theorem bytesToBits_length (bs : Bytes) : (bytesToBits bs).length = 8 * bs.length := by
  induction bs with
  | nil => rfl
  | cons b rest ih =>
    show (byteToBits b ++ bytesToBits rest).length = _
    rw [List.length_append, ih]
    show 8 + 8 * rest.length = 8 * (rest.length + 1)
    ring

theorem bitsToBytes_bytesToBits {bs : Bytes} (h : bytesOk bs) :
    bitsToBytes (bytesToBits bs) = bs := by
  unfold bitsToBytes bytesToBits
  rw [chunks_flatten (by omega) (bs.map byteToBits)
    (by intro x hx
        obtain ⟨b, _, hb⟩ := List.mem_map.mp hx
        rw [← hb]; rfl)]
  rw [List.map_map]
  conv_rhs => rw [← List.map_id bs]
  apply List.map_congr_left
  intro b hb
  exact bitsToByte_byteToBits (h b hb)

theorem bytesToBits_bitsToBytes {bits : List Nat} (h : bitsOk bits) (k : Nat)
    (hl : bits.length = 8 * k) : bytesToBits (bitsToBytes bits) = bits := by
  induction k generalizing bits with
  | zero =>
    have : bits = [] := List.eq_nil_of_length_eq_zero (by omega)
    subst this
    rfl
  | succ m ih =>
    have hne : bits ≠ [] := by
      intro hc
      subst hc
      simp at hl
    unfold bitsToBytes
    rw [chunks_cons (by omega) bits hne]
    show bytesToBits (bitsToByte (bits.take 8) :: (chunks 8 (bits.drop 8)).map bitsToByte) = bits
    show byteToBits (bitsToByte (bits.take 8)) ++ bytesToBits ((chunks 8 (bits.drop 8)).map bitsToByte) = bits
    have hdok : bitsOk (bits.drop 8) := bitsOk_drop 8 h
    have hdlen : (bits.drop 8).length = 8 * m := by
      rw [List.length_drop]; omega
    have hrec := ih hdok hdlen
    unfold bitsToBytes at hrec
    rw [hrec]
    rw [byteToBits_bitsToByte (bitsOk_take 8 h)
      (by rw [List.length_take]; omega)]
    exact List.take_append_drop 8 bits

theorem bytesOk_bitsToBytes {bits : List Nat} (h : bitsOk bits) :
    bytesOk (bitsToBytes bits) := by
  suffices hgen : ∀ (fuel : Nat) (l : List Nat), bitsOk l →
      bytesOk ((chunksGo 8 fuel l).map bitsToByte) from hgen bits.length bits h
  intro fuel
  induction fuel with
  | zero =>
    intro l _ x hx
    simp [chunksGo] at hx
  | succ f ih =>
    intro l hl x hx
    cases l with
    | nil => simp [chunksGo] at hx
    | cons a l2 =>
      have hstep : chunksGo 8 (f + 1) (a :: l2)
          = (a :: l2).take 8 :: chunksGo 8 f ((a :: l2).drop 8) := rfl
      rw [hstep, List.map_cons] at hx
      rcases List.mem_cons.mp hx with h1 | h1
      · subst h1
        have hlt := bitsToByte_lt (bitsOk_take 8 hl)
        have hle : ((a :: l2).take 8).length ≤ 8 := by
          rw [List.length_take]; omega
        have : (2 : Nat) ^ ((a :: l2).take 8).length ≤ 2 ^ 8 :=
          Nat.pow_le_pow_right (by omega) hle
        omega
      · exact ih ((a :: l2).drop 8) (bitsOk_drop 8 hl) x h1

theorem bitsToBytes_length :
    ∀ (k : Nat) (bits : List Nat), bits.length = 8 * k →
      (bitsToBytes bits).length = k := by
  intro k
  induction k with
  | zero =>
    intro bits hl
    have : bits = [] := List.eq_nil_of_length_eq_zero (by omega)
    subst this
    rfl
  | succ m ih =>
    intro bits hl
    have hne : bits ≠ [] := by
      intro hc; subst hc; simp at hl
    unfold bitsToBytes
    rw [chunks_cons (by omega) bits hne]
    show (((bits.take 8) :: chunks 8 (bits.drop 8)).map bitsToByte).length = m + 1
    have := ih (bits.drop 8) (by rw [List.length_drop]; omega)
    unfold bitsToBytes at this
    simp only [List.map_cons, List.length_cons]
    simp only [List.length_map] at this ⊢
    omega

theorem desRaw_length (ks : List (List Nat)) (block : Bytes) :
    (desRaw ks block).length = 8 := by
  unfold desRaw
  exact bitsToBytes_length 8 _ (by rw [applyPerm_length]; rfl)

theorem bytesOk_desRaw (ks : List (List Nat)) (block : Bytes) :
    bytesOk (desRaw ks block) := by
  unfold desRaw
  apply bytesOk_bitsToBytes
  apply bitsOk_applyPerm
  have hb : bitsOk (applyPerm desIP (bytesToBits block)) :=
    bitsOk_applyPerm _ (bitsOk_bytesToBits block)
  have hs := bitsOk_desRounds ks _ _ (bitsOk_take 32 hb) (bitsOk_drop 32 hb)
  exact bitsOk_append hs.2 hs.1

/-- DES with the reversed subkey sequence inverts DES: one block decryption
recovers the plaintext block. -/
theorem desRaw_inverse (ks : List (List Nat)) (block : Bytes)
    (hlen : block.length = 8) (hok : bytesOk block) :
    desRaw ks.reverse (desRaw ks block) = block := by
  unfold desRaw
  dsimp only
  have hblen : (applyPerm desIP (bytesToBits block)).length = 64 := by
    rw [applyPerm_length]; rfl
  have hbok : bitsOk (applyPerm desIP (bytesToBits block)) :=
    bitsOk_applyPerm _ (bitsOk_bytesToBits block)
  have h1 : ((applyPerm desIP (bytesToBits block)).take 32).length = 32 := by
    rw [List.length_take]; omega
  have h2 : ((applyPerm desIP (bytesToBits block)).drop 32).length = 32 := by
    rw [List.length_drop]; omega
  have hslen := desRounds_lengths ks _ _ h1 h2
  have hsok := bitsOk_desRounds ks _ _ (bitsOk_take 32 hbok)
    (bitsOk_drop 32 hbok)
  have hfpok : bitsOk (applyPerm desFP
      ((desRounds ks ((applyPerm desIP (bytesToBits block)).take 32,
        (applyPerm desIP (bytesToBits block)).drop 32)).2 ++
       (desRounds ks ((applyPerm desIP (bytesToBits block)).take 32,
        (applyPerm desIP (bytesToBits block)).drop 32)).1)) :=
    bitsOk_applyPerm _ (bitsOk_append hsok.2 hsok.1)
  rw [bytesToBits_bitsToBytes hfpok 8 (by rw [applyPerm_length]; rfl)]
  rw [desIP_desFP _ (by rw [List.length_append]; omega)]
  have htake : ∀ (u v : List Nat), u.length = 32 →
      (u ++ v).take 32 = u := by
    intro u v hu
    rw [List.take_append_eq_append_take, ← hu, List.take_length,
      Nat.sub_self, List.take_zero, List.append_nil]
  have hdrop : ∀ (u v : List Nat), u.length = 32 →
      (u ++ v).drop 32 = v := by
    intro u v hu
    rw [List.drop_append_eq_append_drop, ← hu, List.drop_length,
      Nat.sub_self, List.drop_zero, List.nil_append]
  rw [htake _ _ hslen.2, hdrop _ _ hslen.2]
  have hrev := desRounds_reverse ks _ _ h1 h2
  have hswap : Prod.swap (desRounds ks
      ((applyPerm desIP (bytesToBits block)).take 32,
       (applyPerm desIP (bytesToBits block)).drop 32))
      = ((desRounds ks ((applyPerm desIP (bytesToBits block)).take 32,
          (applyPerm desIP (bytesToBits block)).drop 32)).2,
         (desRounds ks ((applyPerm desIP (bytesToBits block)).take 32,
          (applyPerm desIP (bytesToBits block)).drop 32)).1) := rfl
  rw [hswap] at hrev
  rw [hrev]
  show bitsToBytes (applyPerm desFP
    ((applyPerm desIP (bytesToBits block)).take 32 ++
     (applyPerm desIP (bytesToBits block)).drop 32)) = block
  rw [List.take_append_drop]
  rw [desFP_desIP _ (by rw [bytesToBits_length, hlen])]
  exact bitsToBytes_bytesToBits hok

theorem desDecrypt_desEncrypt (key block : Bytes) (hlen : block.length = 8)
    (hok : bytesOk block) :
    desDecryptBlock key (desEncryptBlock key block) = block :=
  desRaw_inverse (desKeySchedule key) block hlen hok

theorem desEncrypt_desDecrypt (key block : Bytes) (hlen : block.length = 8)
    (hok : bytesOk block) :
    desEncryptBlock key (desDecryptBlock key block) = block := by
  unfold desEncryptBlock desDecryptBlock
  have := desRaw_inverse (desKeySchedule key).reverse block hlen hok
  rwa [List.reverse_reverse] at this

/-! ## Triple DES (EDE) and CBC mode, the model of `Crypto.Cipher.DES3` and
the pycryptodome CBC layer -/

/-- Odd-parity adjustment of one key byte (`parity_byte` inside
pycryptodome's `adjust_key_parity`). -/
def parityByte (b : Nat) : Nat :=
  (b &&& 0xFE) |||
    (1 ^^^ ((b >>> 1) &&& 1) ^^^ ((b >>> 2) &&& 1) ^^^ ((b >>> 3) &&& 1) ^^^
      ((b >>> 4) &&& 1) ^^^ ((b >>> 5) &&& 1) ^^^ ((b >>> 6) &&& 1) ^^^
      ((b >>> 7) &&& 1))

/-- pycryptodome `Crypto.Cipher.DES3.adjust_key_parity`, called by
`DES3.new`: fixes parity bits and rejects keys that degenerate to single
DES. -/
def adjustKeyParity (key : Bytes) : Except String Bytes :=
  if key.length ≠ 16 ∧ key.length ≠ 24 then .error "Not a valid TDES key"
  else
    let k := key.map parityByte
    if k.take 8 = (k.drop 8).take 8 ∨
        (k.drop (k.length - 16)).take 8 = k.drop (k.length - 8) then
      .error "Triple DES key degenerates to single DES"
    else .ok k

/-- The three single-DES keys of a 16- or 24-byte TDES key. -/
def des3Keys (key : Bytes) : Bytes × Bytes × Bytes :=
  if key.length = 16 then (key.take 8, (key.drop 8).take 8, key.take 8)
  else (key.take 8, (key.drop 8).take 8, key.drop 16)

/-- TDES EDE encryption of one block. -/
def des3EncryptBlock (key block : Bytes) : Bytes :=
  desEncryptBlock (des3Keys key).2.2
    (desDecryptBlock (des3Keys key).2.1
      (desEncryptBlock (des3Keys key).1 block))

/-- TDES EDE decryption of one block. -/
def des3DecryptBlock (key block : Bytes) : Bytes :=
  desDecryptBlock (des3Keys key).1
    (desEncryptBlock (des3Keys key).2.1
      (desDecryptBlock (des3Keys key).2.2 block))

inductive CipherKind where
  | des
  | des3
deriving DecidableEq

def blockEncrypt : CipherKind → Bytes → Bytes → Bytes
  | .des, key, b => desEncryptBlock key b
  | .des3, key, b => des3EncryptBlock key b

def blockDecrypt : CipherKind → Bytes → Bytes → Bytes
  | .des, key, b => desDecryptBlock key b
  | .des3, key, b => des3DecryptBlock key b

/-- `config['cipher'].new(key, MODE_CBC, iv)`: key validation (exact length
for DES; length and non-degeneracy for DES3, whose parity-adjusted key is the
one used) and IV length validation.  Returns the cipher state. -/
def cipherNew (kind : CipherKind) (key iv : Bytes) :
    Except String (Bytes × Bytes) :=
  match kind with
  | .des =>
    if key.length ≠ 8 then .error "Incorrect DES key length"
    else if iv.length ≠ 8 then .error "Incorrect IV length"
    else .ok (key, iv)
  | .des3 =>
    match adjustKeyParity key with
    | .error e => .error e
    | .ok k =>
      if iv.length ≠ 8 then .error "Incorrect IV length"
      else .ok (k, iv)

def cbcEncryptBlocks (kind : CipherKind) (key : Bytes) :
    Bytes → List Bytes → List Bytes
  | _, [] => []
  | prev, b :: bs =>
    let c := blockEncrypt kind key (xorBits b prev)
    c :: cbcEncryptBlocks kind key c bs

/-- `cipher.encrypt(data)` in CBC mode; the data length must be a multiple of
the 8-byte block size (pycryptodome raises otherwise). -/
def cbcEncrypt (kind : CipherKind) (key iv data : Bytes) : Option Bytes :=
  if data.length % 8 = 0 then
    some (cbcEncryptBlocks kind key iv (chunks 8 data)).flatten
  else none

def cbcDecryptBlocks (kind : CipherKind) (key : Bytes) :
    Bytes → List Bytes → List Bytes
  | _, [] => []
  | prev, c :: cs =>
    xorBits (blockDecrypt kind key c) prev :: cbcDecryptBlocks kind key c cs

/-- `cipher.decrypt(data)` in CBC mode. -/
def cbcDecrypt (kind : CipherKind) (key iv data : Bytes) : Option Bytes :=
  if data.length % 8 = 0 then
    some (cbcDecryptBlocks kind key iv (chunks 8 data)).flatten
  else none

/-! ### Cipher lemmas -/

theorem bytesOk_xorBits :
    ∀ {a b : Bytes}, bytesOk a → bytesOk b → bytesOk (xorBits a b) := by
  intro a
  induction a with
  | nil => intro b _ _ x hx; simp [xorBits] at hx
  | cons x xs ih =>
    intro b ha hb
    cases b with
    | nil => intro y hy; simp [xorBits] at hy
    | cons y ys =>
      intro z hz
      rcases List.mem_cons.mp hz with h | h
      · subst h
        exact @Nat.xor_lt_two_pow _ _ 8 (ha x (List.mem_cons_self x xs))
          (hb y (List.mem_cons_self y ys))
      · exact ih (fun u hu => ha u (List.mem_cons_of_mem x hu))
          (fun u hu => hb u (List.mem_cons_of_mem y hu)) z h

theorem blockEncrypt_length (kind : CipherKind) (key b : Bytes) :
    (blockEncrypt kind key b).length = 8 := by
  cases kind with
  | des => exact desRaw_length _ _
  | des3 => exact desRaw_length _ _

theorem bytesOk_blockEncrypt (kind : CipherKind) (key b : Bytes) :
    bytesOk (blockEncrypt kind key b) := by
  cases kind with
  | des => exact bytesOk_desRaw _ _
  | des3 => exact bytesOk_desRaw _ _

theorem blockDecrypt_blockEncrypt (kind : CipherKind) (key b : Bytes)
    (hlen : b.length = 8) (hok : bytesOk b) :
    blockDecrypt kind key (blockEncrypt kind key b) = b := by
  cases kind with
  | des => exact desDecrypt_desEncrypt key b hlen hok
  | des3 =>
    show des3DecryptBlock key (des3EncryptBlock key b) = b
    unfold des3EncryptBlock des3DecryptBlock
    have hel : ∀ k x : Bytes, (desEncryptBlock k x).length = 8 :=
      fun k x => desRaw_length _ _
    have heo : ∀ k x : Bytes, bytesOk (desEncryptBlock k x) :=
      fun k x => bytesOk_desRaw _ _
    have hdl : ∀ k x : Bytes, (desDecryptBlock k x).length = 8 :=
      fun k x => desRaw_length _ _
    have hdo : ∀ k x : Bytes, bytesOk (desDecryptBlock k x) :=
      fun k x => bytesOk_desRaw _ _
    rw [desDecrypt_desEncrypt _ _ (hdl _ _) (hdo _ _),
      desEncrypt_desDecrypt _ _ (hel _ _) (heo _ _),
      desDecrypt_desEncrypt _ _ hlen hok]

theorem cbcBlocks_roundtrip (kind : CipherKind) (key : Bytes) :
    ∀ (blocks : List Bytes) (prev : Bytes),
      (∀ b ∈ blocks, b.length = 8 ∧ bytesOk b) → prev.length = 8 →
      bytesOk prev →
      cbcDecryptBlocks kind key prev (cbcEncryptBlocks kind key prev blocks)
        = blocks := by
  intro blocks
  induction blocks with
  | nil => intro prev _ _ _; rfl
  | cons b bs ih =>
    intro prev hb hprevl hprevo
    obtain ⟨hbl, hbo⟩ := hb b (List.mem_cons_self b bs)
    have hxlen : (xorBits b prev).length = 8 := by
      rw [xorBits_length]; omega
    have hxok : bytesOk (xorBits b prev) := bytesOk_xorBits hbo hprevo
    show xorBits (blockDecrypt kind key
          (blockEncrypt kind key (xorBits b prev))) prev
        :: cbcDecryptBlocks kind key
            (blockEncrypt kind key (xorBits b prev))
            (cbcEncryptBlocks kind key
              (blockEncrypt kind key (xorBits b prev)) bs)
        = b :: bs
    rw [blockDecrypt_blockEncrypt kind key _ hxlen hxok]
    rw [xorBits_cancel b prev (by omega)]
    rw [ih _ (fun x hx => hb x (List.mem_cons_of_mem b hx))
      (blockEncrypt_length kind key _) (bytesOk_blockEncrypt kind key _)]

theorem flatten_length_blocks {L : List Bytes} (h : ∀ b ∈ L, b.length = 8) :
    L.flatten.length = 8 * L.length := by
  induction L with
  | nil => rfl
  | cons x L ih =>
    rw [List.flatten_cons, List.length_append,
      h x (List.mem_cons_self x L),
      ih (fun b hb => h b (List.mem_cons_of_mem x hb))]
    simp only [List.length_cons]
    ring

theorem cbcEncryptBlocks_mem (kind : CipherKind) (key : Bytes) :
    ∀ (blocks : List Bytes) (prev : Bytes),
      ∀ c ∈ cbcEncryptBlocks kind key prev blocks,
        c.length = 8 ∧ bytesOk c := by
  intro blocks
  induction blocks with
  | nil => intro prev c hc; simp [cbcEncryptBlocks] at hc
  | cons b bs ih =>
    intro prev c hc
    rcases List.mem_cons.mp hc with h | h
    · subst h
      exact ⟨blockEncrypt_length kind key _, bytesOk_blockEncrypt kind key _⟩
    · exact ih _ c h

theorem cbcEncryptBlocks_length (kind : CipherKind) (key : Bytes) :
    ∀ (blocks : List Bytes) (prev : Bytes),
      (cbcEncryptBlocks kind key prev blocks).length = blocks.length := by
  intro blocks
  induction blocks with
  | nil => intro prev; rfl
  | cons b bs ih =>
    intro prev
    show (cbcEncryptBlocks kind key _ bs).length + 1 = bs.length + 1
    rw [ih]

theorem chunks_props :
    ∀ (k : Nat) (data : Bytes), data.length = 8 * k →
      (∀ c ∈ chunks 8 data, c.length = 8 ∧ (bytesOk data → bytesOk c)) ∧
      (chunks 8 data).length = k := by
  intro k
  induction k with
  | zero =>
    intro data h
    have : data = [] := List.eq_nil_of_length_eq_zero (by omega)
    subst this
    exact ⟨by intro c hc; simp [chunks, chunksGo] at hc, rfl⟩
  | succ m ih =>
    intro data h
    have hne : data ≠ [] := by intro hc; subst hc; simp at h
    have hdl : (data.drop 8).length = 8 * m := by
      rw [List.length_drop]; omega
    obtain ⟨ihm, ihl⟩ := ih (data.drop 8) hdl
    rw [chunks_cons (by omega) data hne]
    constructor
    · intro c hc
      rcases List.mem_cons.mp hc with h1 | h1
      · subst h1
        exact ⟨by rw [List.length_take]; omega,
          fun hok => fun x hx => hok x (List.take_subset 8 data hx)⟩
      · obtain ⟨hl8, hok8⟩ := ihm c h1
        exact ⟨hl8, fun hok =>
          hok8 (fun x hx => hok x (List.drop_subset 8 data hx))⟩
    · simp only [List.length_cons, ihl]

theorem chunksGo_flatten {n : Nat} (hn : 0 < n) :
    ∀ (fuel : Nat) (l : List Nat), l.length ≤ fuel →
      (chunksGo n fuel l).flatten = l := by
  intro fuel
  induction fuel with
  | zero =>
    intro l h
    have : l = [] := List.eq_nil_of_length_eq_zero (by omega)
    subst this
    rfl
  | succ f ih =>
    intro l h
    cases l with
    | nil => rfl
    | cons a l2 =>
      show ((a :: l2).take n :: chunksGo n f ((a :: l2).drop n)).flatten
        = a :: l2
      rw [List.flatten_cons, ih ((a :: l2).drop n)
        (by rw [List.length_drop]; simp at h ⊢; omega)]
      exact List.take_append_drop n (a :: l2)

/-- Flattening the chunks of a list recovers the list. -/
theorem chunks_flatten_id {n : Nat} (hn : 0 < n) (l : List Nat) :
    (chunks n l).flatten = l := chunksGo_flatten hn l.length l (le_refl _)

/-- CBC decryption inverts CBC encryption for block-aligned valid input. -/
theorem cbc_roundtrip (kind : CipherKind) (key iv data : Bytes)
    (hlen : data.length % 8 = 0) (hok : bytesOk data)
    (hiv : iv.length = 8) (hivok : bytesOk iv) :
    ∃ ct, cbcEncrypt kind key iv data = some ct ∧
      cbcDecrypt kind key iv ct = some data ∧
      ct.length = data.length ∧ bytesOk ct := by
  obtain ⟨k, hk⟩ : ∃ k, data.length = 8 * k := ⟨data.length / 8, by omega⟩
  obtain ⟨hmem, hcount⟩ := chunks_props k data hk
  have hencmem := cbcEncryptBlocks_mem kind key (chunks 8 data) iv
  have hctlen : (cbcEncryptBlocks kind key iv (chunks 8 data)).flatten.length
      = data.length := by
    rw [flatten_length_blocks (fun b hb => (hencmem b hb).1),
      cbcEncryptBlocks_length, hcount, hk]
  refine ⟨(cbcEncryptBlocks kind key iv (chunks 8 data)).flatten, ?_, ?_, ?_, ?_⟩
  · unfold cbcEncrypt
    rw [if_pos hlen]
  · unfold cbcDecrypt
    rw [if_pos (by omega)]
    rw [chunks_flatten (by omega) _ (fun b hb => (hencmem b hb).1)]
    rw [cbcBlocks_roundtrip kind key (chunks 8 data) iv
      (fun b hb => ⟨(hmem b hb).1, (hmem b hb).2 hok⟩) hiv hivok]
    rw [chunks_flatten_id (by omega) data]
  · exact hctlen
  · intro x hx
    obtain ⟨c, hc, hxc⟩ := List.mem_flatten.mp hx
    exact (hencmem c hc).2 x hxc

/-! ## PKCS#7 padding, the model of `Crypto.Util.Padding.pad` / `unpad`
(default pkcs7 style) -/

/-- `Crypto.Util.Padding.pad(data, block_size)`. -/
def pad (data : Bytes) (block_size : Nat) : Bytes :=
  let padding_len := block_size - data.length % block_size
  data ++ List.replicate padding_len padding_len

/-- `Crypto.Util.Padding.unpad(padded_data, block_size)`; `none` models the
`ValueError`s (zero-length input, unaligned input, bad padding). -/
def unpad (padded_data : Bytes) (block_size : Nat) : Option Bytes :=
  if padded_data.length = 0 then none
  else if padded_data.length % block_size ≠ 0 then none
  else
    let padding_len := padded_data.getD (padded_data.length - 1) 0
    if padding_len < 1 ∨ padding_len > min block_size padded_data.length then
      none
    else if (padded_data.drop (padded_data.length - padding_len)).all
        (fun x => x == padding_len) then
      some (padded_data.take (padded_data.length - padding_len))
    else none

theorem pad_length (data : Bytes) (bs : Nat) :
    (pad data bs).length = data.length + (bs - data.length % bs) := by
  unfold pad
  rw [List.length_append, List.length_replicate]

theorem bytesOk_pad {data : Bytes} (hok : bytesOk data) {bs : Nat}
    (hbs : bs < 256) : bytesOk (pad data bs) := by
  apply bytesOk_append hok
  intro x hx
  rw [List.eq_of_mem_replicate hx]
  omega

/-- Unpadding inverts padding. -/
theorem unpad_pad (data : Bytes) (bs : Nat) (hbs : 0 < bs) :
    unpad (pad data bs) bs = some data := by
  have hmod : data.length % bs < bs := Nat.mod_lt _ hbs
  set p := bs - data.length % bs with hp
  have hp1 : 1 ≤ p := by omega
  have hpbs : p ≤ bs := by omega
  have hlen : (pad data bs).length = data.length + p := pad_length data bs
  have hmod0 : (data.length + p) % bs = 0 := by
    rw [Nat.add_mod]
    rcases Nat.lt_or_ge p bs with hlt | hge
    · rw [Nat.mod_eq_of_lt hlt]
      have hsum : data.length % bs + p = bs := by omega
      rw [hsum, Nat.mod_self]
    · have hz : data.length % bs = 0 := by omega
      have hpeq : p = bs := by omega
      rw [hpeq, Nat.mod_self, hz]
      simp
  unfold unpad
  rw [if_neg (by omega), if_neg (by rw [hlen]; omega)]
  have hgetD : (pad data bs).getD ((pad data bs).length - 1) 0 = p := by
    rw [hlen]
    show (data ++ List.replicate p p).getD (data.length + p - 1) 0 = p
    rw [List.getD_append_right data _ 0 _ (by omega)]
    rw [List.getD_eq_getElem _ _ (by rw [List.length_replicate]; omega)]
    apply List.getElem_replicate
  rw [hgetD]
  rw [if_neg (by rw [hlen]; omega)]
  have hdrop : (pad data bs).drop ((pad data bs).length - p)
      = List.replicate p p := by
    rw [hlen]
    have he : data.length + p - p = data.length := by omega
    rw [he]
    exact List.drop_left data (List.replicate p p)
  rw [hdrop]
  rw [if_pos (by
    rw [List.all_eq_true]
    intro x hx
    rw [List.eq_of_mem_replicate hx]
    exact beq_self_eq_true p)]
  have htake : (pad data bs).take ((pad data bs).length - p) = data := by
    rw [hlen]
    have he : data.length + p - p = data.length := by omega
    rw [he]
    exact List.take_left data (List.replicate p p)
  rw [htake]

/-! ## Base64, the model of `base64.b64encode` / `base64.b64decode` -/

def b64Alphabet : List Char :=
  ['A', 'B', 'C', 'D', 'E', 'F', 'G', 'H', 'I', 'J', 'K', 'L', 'M',
   'N', 'O', 'P', 'Q', 'R', 'S', 'T', 'U', 'V', 'W', 'X', 'Y', 'Z',
   'a', 'b', 'c', 'd', 'e', 'f', 'g', 'h', 'i', 'j', 'k', 'l', 'm',
   'n', 'o', 'p', 'q', 'r', 's', 't', 'u', 'v', 'w', 'x', 'y', 'z',
   '0', '1', '2', '3', '4', '5', '6', '7', '8', '9', '+', '/']

def b64Char (n : Nat) : Char := b64Alphabet.getD n 'A'

/-- `base64.b64encode`: 3-byte groups become 4 alphabet characters; a 1- or
2-byte tail is padded with `=`. -/
def b64encode : Bytes → Text
  | [] => []
  | [a] => [b64Char (a / 4), b64Char (a % 4 * 16), '=', '=']
  | [a, b] =>
    [b64Char (a / 4), b64Char (a % 4 * 16 + b / 16), b64Char (b % 16 * 4), '=']
  | a :: b :: c :: rest =>
    b64Char (a / 4) :: b64Char (a % 4 * 16 + b / 16) ::
      b64Char (b % 16 * 4 + c / 64) :: b64Char (c % 64) :: b64encode rest

def isB64Char (c : Char) : Bool := b64Alphabet.contains c

/-- The 6-bit value of an alphabet character. -/
def b64Value (c : Char) : Option Nat :=
  let i := b64Alphabet.indexOf c
  if i < 64 then some i else none

/-- Decoding of the already-filtered character stream, in groups of four;
`none` models `binascii.Error` (wrong group length or misplaced `=`). -/
def b64decodeQuads : Text → Option Bytes
  | [] => some []
  | c1 :: c2 :: c3 :: c4 :: rest =>
    match b64Value c1, b64Value c2 with
    | some a, some b =>
      if c3 = '=' then
        if c4 = '=' ∧ rest = [] then some [a * 4 + b / 16] else none
      else
        match b64Value c3 with
        | some c =>
          if c4 = '=' then
            if rest = [] then some [a * 4 + b / 16, b % 16 * 16 + c / 4]
            else none
          else
            match b64Value c4 with
            | some d =>
              match b64decodeQuads rest with
              | some bs =>
                some ((a * 4 + b / 16) :: (b % 16 * 16 + c / 4) ::
                  (c % 4 * 64 + d) :: bs)
              | none => none
            | none => none
        | none => none
    | _, _ => none
  | _ => none

/-- `base64.b64decode(s)` with the default `validate=False`: characters
outside the Base64 alphabet and `=` are discarded before decoding, as in
CPython's `binascii.a2b_base64`. -/
def b64decode (s : Text) : Option Bytes :=
  b64decodeQuads (s.filter fun c => isB64Char c || c == '=')

theorem b64Value_b64Char : ∀ v, v < 64 → b64Value (b64Char v) = some v := by
  decide

theorem b64Char_ne_eq : ∀ v, v < 64 → b64Char v ≠ '=' := by decide

theorem isB64Char_b64Char : ∀ v, v < 64 → isB64Char (b64Char v) = true := by
  decide

theorem b64encode_chars :
    ∀ (bs : Bytes), bytesOk bs →
      ∀ c ∈ b64encode bs, (isB64Char c || c == '=') = true := by
  intro bs
  match bs with
  | [] => intro _ c hc; simp [b64encode] at hc
  | [a] =>
    intro hok c hc
    have ha : a < 256 := hok a (by simp)
    simp only [b64encode, List.mem_cons, List.not_mem_nil, or_false] at hc
    rcases hc with h | h | h | h <;> subst h <;>
      first
      | (rw [Bool.or_eq_true]; left; apply isB64Char_b64Char; omega)
      | rfl
  | [a, b] =>
    intro hok c hc
    have ha : a < 256 := hok a (by simp)
    have hb : b < 256 := hok b (by simp)
    simp only [b64encode, List.mem_cons, List.not_mem_nil, or_false] at hc
    rcases hc with h | h | h | h <;> subst h <;>
      first
      | (rw [Bool.or_eq_true]; left; apply isB64Char_b64Char; omega)
      | rfl
  | a :: b :: cc :: rest =>
    intro hok c hc
    have ha : a < 256 := hok a (by simp)
    have hb : b < 256 := hok b (by simp)
    have hcc : cc < 256 := hok cc (by simp)
    simp only [b64encode, List.mem_cons] at hc
    rcases hc with h | h | h | h | h
    · subst h; rw [Bool.or_eq_true]; left; apply isB64Char_b64Char; omega
    · subst h; rw [Bool.or_eq_true]; left; apply isB64Char_b64Char; omega
    · subst h; rw [Bool.or_eq_true]; left; apply isB64Char_b64Char; omega
    · subst h; rw [Bool.or_eq_true]; left; apply isB64Char_b64Char; omega
    · exact b64encode_chars rest (fun x hx => hok x (by simp [hx])) c h

theorem b64decodeQuads_encode :
    ∀ (bs : Bytes), bytesOk bs → b64decodeQuads (b64encode bs) = some bs := by
  intro bs
  match bs with
  | [] => intro _; rfl
  | [a] =>
    intro hok
    have ha : a < 256 := hok a (by simp)
    show b64decodeQuads
      [b64Char (a / 4), b64Char (a % 4 * 16), '=', '='] = some [a]
    unfold b64decodeQuads
    rw [b64Value_b64Char _ (by omega), b64Value_b64Char _ (by omega)]
    dsimp only
    rw [if_pos rfl, if_pos ⟨rfl, rfl⟩]
    have : a / 4 * 4 + a % 4 * 16 / 16 = a := by omega
    rw [this]
  | [a, b] =>
    intro hok
    have ha : a < 256 := hok a (by simp)
    have hb : b < 256 := hok b (by simp)
    show b64decodeQuads [b64Char (a / 4), b64Char (a % 4 * 16 + b / 16),
      b64Char (b % 16 * 4), '='] = some [a, b]
    unfold b64decodeQuads
    rw [b64Value_b64Char _ (by omega), b64Value_b64Char _ (by omega)]
    dsimp only
    rw [if_neg (b64Char_ne_eq _ (by omega)), b64Value_b64Char _ (by omega)]
    dsimp only
    rw [if_pos rfl, if_pos rfl]
    have h1 : a / 4 * 4 + (a % 4 * 16 + b / 16) / 16 = a := by omega
    have h2 : (a % 4 * 16 + b / 16) % 16 * 16 + b % 16 * 4 / 4 = b := by omega
    rw [h1, h2]
  | a :: b :: c :: rest =>
    intro hok
    have ha : a < 256 := hok a (by simp)
    have hb : b < 256 := hok b (by simp)
    have hc : c < 256 := hok c (by simp)
    have hrest : bytesOk rest := fun x hx => hok x (by simp [hx])
    show b64decodeQuads (b64Char (a / 4) :: b64Char (a % 4 * 16 + b / 16) ::
      b64Char (b % 16 * 4 + c / 64) :: b64Char (c % 64) :: b64encode rest)
      = some (a :: b :: c :: rest)
    unfold b64decodeQuads
    rw [b64Value_b64Char _ (by omega), b64Value_b64Char _ (by omega)]
    dsimp only
    rw [if_neg (b64Char_ne_eq _ (by omega)), b64Value_b64Char _ (by omega)]
    dsimp only
    rw [if_neg (b64Char_ne_eq _ (by omega)), b64Value_b64Char _ (by omega)]
    dsimp only
    rw [b64decodeQuads_encode rest hrest]
    have h1 : a / 4 * 4 + (a % 4 * 16 + b / 16) / 16 = a := by omega
    have h2 : (a % 4 * 16 + b / 16) % 16 * 16 + (b % 16 * 4 + c / 64) / 4 = b := by
      omega
    have h3 : (b % 16 * 4 + c / 64) % 4 * 64 + c % 64 = c := by omega
    rw [h1, h2, h3]

/-- Decoding inverts encoding. -/
theorem b64decode_b64encode {bs : Bytes} (hok : bytesOk bs) :
    b64decode (b64encode bs) = some bs := by
  unfold b64decode
  rw [List.filter_eq_self.mpr (b64encode_chars bs hok)]
  exact b64decodeQuads_encode bs hok

/-! ## UTF-8, the model of `str.encode('utf-8')` / `bytes.decode('utf-8')`.
Text is a sequence of Unicode scalar values; both Lean `Char` and Python
`str` exclude surrogates. -/

/-- UTF-8 encoding of one scalar value. -/
def utf8EncodeChar (c : Char) : Bytes :=
  let v := c.toNat
  if v < 128 then [v]
  else if v < 2048 then [192 + v / 64, 128 + v % 64]
  else if v < 65536 then [224 + v / 4096, 128 + v / 64 % 64, 128 + v % 64]
  else [240 + v / 262144, 128 + v / 4096 % 64, 128 + v / 64 % 64,
    128 + v % 64]

def utf8Encode (s : Text) : Bytes := (s.map utf8EncodeChar).flatten

/-- One strict UTF-8 decoding step: the scalar value of the first encoded
character and the remaining bytes; `none` on stray continuation bytes,
truncated sequences, overlong encodings, surrogates and values beyond
U+10FFFF, as in Python. -/
def utf8Step (bs : Bytes) : Option (Nat × Bytes) :=
  if bs.length = 0 then none
  else
    let b := bs.getD 0 0
    if b < 128 then some (b, bs.drop 1)
    else if b < 194 then none
    else if b < 224 then
      if 2 ≤ bs.length then
        let b2 := bs.getD 1 0
        if 128 ≤ b2 ∧ b2 < 192 then
          some ((b - 192) * 64 + (b2 - 128), bs.drop 2)
        else none
      else none
    else if b < 240 then
      if 3 ≤ bs.length then
        let b2 := bs.getD 1 0
        let b3 := bs.getD 2 0
        if (128 ≤ b2 ∧ b2 < 192) ∧ (128 ≤ b3 ∧ b3 < 192)
            ∧ (b = 224 → 160 ≤ b2) ∧ (b = 237 → b2 < 160) then
          some ((b - 224) * 4096 + (b2 - 128) * 64 + (b3 - 128), bs.drop 3)
        else none
      else none
    else if b < 245 then
      if 4 ≤ bs.length then
        let b2 := bs.getD 1 0
        let b3 := bs.getD 2 0
        let b4 := bs.getD 3 0
        if (128 ≤ b2 ∧ b2 < 192) ∧ (128 ≤ b3 ∧ b3 < 192)
            ∧ (128 ≤ b4 ∧ b4 < 192)
            ∧ (b = 240 → 144 ≤ b2) ∧ (b = 244 → b2 < 144) then
          some ((b - 240) * 262144 + (b2 - 128) * 4096 + (b3 - 128) * 64
            + (b4 - 128), bs.drop 4)
        else none
      else none
    else none

/-- The decoding loop; the fuel is the byte length, which bounds the number
of decoded characters. -/
def utf8DecodeGo : Nat → Bytes → Option Text
  | 0, bs => if bs.length = 0 then some [] else none
  | fuel + 1, bs =>
    if bs.length = 0 then some []
    else
      match utf8Step bs with
      | none => none
      | some (v, tail) =>
        match utf8DecodeGo fuel tail with
        | some s => some (Char.ofNat v :: s)
        | none => none

/-- `bytes.decode('utf-8')`: strict UTF-8 decoding of a whole byte string. -/
def utf8Decode (bs : Bytes) : Option Text := utf8DecodeGo bs.length bs

theorem char_valid_range (c : Char) :
    c.toNat < 55296 ∨ (57343 < c.toNat ∧ c.toNat < 1114112) := by
  have hv := c.valid
  rcases hv with h | ⟨h1, h2⟩
  · left
    exact h
  · right
    exact ⟨h1, h2⟩

theorem bytesOk_utf8EncodeChar (c : Char) : bytesOk (utf8EncodeChar c) := by
  have hv := char_valid_range c
  unfold utf8EncodeChar
  intro x hx
  dsimp only at hx
  split_ifs at hx <;>
    simp only [List.mem_cons, List.not_mem_nil, or_false] at hx <;>
    omega

theorem bytesOk_utf8Encode (s : Text) : bytesOk (utf8Encode s) := by
  intro x hx
  obtain ⟨l, hl, hxl⟩ := List.mem_flatten.mp hx
  obtain ⟨c, _, hc⟩ := List.mem_map.mp hl
  rw [← hc] at hxl
  exact bytesOk_utf8EncodeChar c x hxl

theorem utf8EncodeChar_length_pos (c : Char) :
    1 ≤ (utf8EncodeChar c).length := by
  unfold utf8EncodeChar
  dsimp only
  split_ifs <;> simp

/-- One decoding step undoes the encoding of one character. -/
theorem utf8Step_encodeChar (c : Char) (rest : Bytes) :
    utf8Step (utf8EncodeChar c ++ rest) = some (c.toNat, rest) := by
  have hv := char_valid_range c
  unfold utf8EncodeChar
  dsimp only
  by_cases h1 : c.toNat < 128
  · rw [if_pos h1]
    show utf8Step (c.toNat :: rest) = _
    unfold utf8Step
    rw [if_neg (by simp)]
    dsimp only
    rw [List.getD_cons_zero, if_pos h1, List.drop_one, List.tail_cons]
  · rw [if_neg h1]
    by_cases h2 : c.toNat < 2048
    · rw [if_pos h2]
      show utf8Step ((192 + c.toNat / 64) :: (128 + c.toNat % 64) :: rest)
        = _
      unfold utf8Step
      rw [if_neg (by simp)]
      dsimp only
      rw [List.getD_cons_zero, if_neg (by omega), if_neg (by omega),
        if_pos (by omega), if_pos (by simp), List.getD_cons_succ,
        List.getD_cons_zero, if_pos (by omega)]
      have harith : (192 + c.toNat / 64 - 192) * 64
          + (128 + c.toNat % 64 - 128) = c.toNat := by omega
      rw [harith]
      rfl
    · rw [if_neg h2]
      by_cases h3 : c.toNat < 65536
      · rw [if_pos h3]
        show utf8Step ((224 + c.toNat / 4096) :: (128 + c.toNat / 64 % 64)
          :: (128 + c.toNat % 64) :: rest) = _
        unfold utf8Step
        rw [if_neg (by simp)]
        dsimp only
        rw [List.getD_cons_zero, if_neg (by omega), if_neg (by omega),
          if_neg (by omega), if_pos (by omega), if_pos (by simp),
          List.getD_cons_succ, List.getD_cons_zero, List.getD_cons_succ,
          List.getD_cons_succ, List.getD_cons_zero, if_pos (by omega)]
        have harith : (224 + c.toNat / 4096 - 224) * 4096
            + (128 + c.toNat / 64 % 64 - 128) * 64
            + (128 + c.toNat % 64 - 128) = c.toNat := by omega
        rw [harith]
        rfl
      · rw [if_neg h3]
        show utf8Step ((240 + c.toNat / 262144)
          :: (128 + c.toNat / 4096 % 64) :: (128 + c.toNat / 64 % 64)
          :: (128 + c.toNat % 64) :: rest) = _
        unfold utf8Step
        rw [if_neg (by simp)]
        dsimp only
        rw [List.getD_cons_zero, if_neg (by omega), if_neg (by omega),
          if_neg (by omega), if_neg (by omega), if_pos (by omega),
          if_pos (by simp)]
        simp only [List.getD_cons_succ, List.getD_cons_zero]
        rw [if_pos (by omega)]
        have harith : (240 + c.toNat / 262144 - 240) * 262144
            + (128 + c.toNat / 4096 % 64 - 128) * 4096
            + (128 + c.toNat / 64 % 64 - 128) * 64
            + (128 + c.toNat % 64 - 128) = c.toNat := by omega
        rw [harith]
        rfl

theorem utf8DecodeGo_encode :
    ∀ (fuel : Nat) (s : Text), (utf8Encode s).length ≤ fuel →
      utf8DecodeGo fuel (utf8Encode s) = some s := by
  intro fuel
  induction fuel with
  | zero =>
    intro s hf
    cases s with
    | nil => rfl
    | cons c cs =>
      exfalso
      have h1 := utf8EncodeChar_length_pos c
      have : (utf8Encode (c :: cs)).length
          = (utf8EncodeChar c).length + (utf8Encode cs).length := by
        show ((utf8EncodeChar c ++ utf8Encode cs)).length = _
        rw [List.length_append]
      omega
  | succ f ih =>
    intro s hf
    cases s with
    | nil =>
      show utf8DecodeGo (f + 1) [] = some []
      unfold utf8DecodeGo
      rw [if_pos (show ([] : Bytes).length = 0 from rfl)]
    | cons c cs =>
      have h1 := utf8EncodeChar_length_pos c
      have hlen : (utf8Encode (c :: cs)).length
          = (utf8EncodeChar c).length + (utf8Encode cs).length := by
        show ((utf8EncodeChar c ++ utf8Encode cs)).length = _
        rw [List.length_append]
      have happ : utf8Encode (c :: cs) = utf8EncodeChar c ++ utf8Encode cs :=
        rfl
      unfold utf8DecodeGo
      rw [if_neg (by omega)]
      rw [happ, utf8Step_encodeChar c (utf8Encode cs)]
      dsimp only
      rw [ih cs (by omega)]
      rw [Char.ofNat_toNat]

/-- UTF-8 decoding inverts UTF-8 encoding. -/
theorem utf8Decode_utf8Encode (s : Text) : utf8Decode (utf8Encode s) = some s :=
  utf8DecodeGo_encode (utf8Encode s).length s (le_refl _)

/-! ## The Jasypt engine (`jasypt_utils.py`, class `JasyptEncryptor`) -/

inductive HashKind where
  | md5
  | sha1
deriving DecidableEq

def hashFn : HashKind → Bytes → Bytes
  | .md5 => md5
  | .sha1 => sha1

structure AlgoConfig where
  cipher : CipherKind
  key_size : Nat
  iv_size : Nat
  hash_algo : HashKind
deriving DecidableEq

def blockSize : CipherKind → Nat
  | .des => 8
  | .des3 => 8

/-- `JasyptEncryptor.ALGORITHMS` (the mode is always CBC). -/
def ALGORITHMS : List (Text × AlgoConfig) :=
  [("PBEWithMD5AndDES".data, ⟨.des, 8, 8, .md5⟩),
   ("PBEWithMD5AndTripleDES".data, ⟨.des3, 24, 8, .md5⟩),
   ("PBEWithSHA1AndDESede".data, ⟨.des3, 24, 8, .sha1⟩)]

def DEFAULT_ALGORITHM : Text := "PBEWithMD5AndDES".data

def DEFAULT_ITERATIONS : Int := 1000

/-- The causes wrapped by the `except` clause of `decrypt` (the source turns
them all into one `ValueError` whose message interpolates the cause). -/
inductive DecryptCause where
  | badBase64
  | cipherInit (msg : String)
  | badBlockLength
  | badPadding
  | badUtf8
deriving DecidableEq

/-- The `ValueError`s raised by the engine. -/
inductive JError where
  | missingPassword
  | unknownAlgorithm (name : Text)
  | cipherError (msg : String)
  | decryptFailed (cause : DecryptCause)
deriving DecidableEq

deriving instance DecidableEq for Except

/-- Python `a or b` where both operands are optional text (`None` and the
empty string are falsy). -/
def orText (a b : Option Text) : Option Text :=
  match a with
  | some s => if s = [] then b else some s
  | none => b

/-- Python `a or b` where the right operand is plain text. -/
def orTextD (a : Option Text) (b : Text) : Text :=
  match a with
  | some s => if s = [] then b else s
  | none => b

/-- Python `not pwd` for an optional string. -/
def textFalsy : Option Text → Bool
  | none => true
  | some s => s.isEmpty

structure JasyptConfig where
  password : Option Text
  algorithm : Text
  iterations : Int
deriving DecidableEq

/-- `JasyptEncryptor.__init__(password, algorithm, iterations)`: falsy
arguments are replaced by the defaults, then the algorithm name is checked
against the registry. -/
def jasyptInit (password : Option Text) (algorithm : Option Text)
    (iterations : Option Int) : Except JError JasyptConfig :=
  let algo := orTextD algorithm DEFAULT_ALGORITHM
  let iters := match iterations with
    | none => DEFAULT_ITERATIONS
    | some i => if i = 0 then DEFAULT_ITERATIONS else i
  if (ALGORITHMS.lookup algo).isNone then .error (.unknownAlgorithm algo)
  else .ok ⟨password, algo, iters⟩

/-- `JasyptEncryptor.encrypt(plain_text, password, algorithm)`, with the
`get_random_bytes(8)` draw passed in explicitly as `salt`.  The outer
`Option` is `none` only in the case that the KDF loop diverges, which never
happens for the real hash functions. -/
def encryptWithSalt (cfg : JasyptConfig) (salt : Bytes) (plain_text : Text)
    (password : Option Text) (algorithm : Option Text) :
    Option (Except JError Text) :=
  let pwd := orText password cfg.password
  let algo := orTextD algorithm cfg.algorithm
  if textFalsy pwd then some (.error .missingPassword)
  else
    match ALGORITHMS.lookup algo with
    | none => some (.error (.unknownAlgorithm algo))
    | some config =>
      match openssl_kdf (utf8Encode (pwd.getD [])) salt config.key_size
          config.iv_size (hashFn config.hash_algo) cfg.iterations with
      | none => none
      | some (key, iv) =>
        match cipherNew config.cipher key iv with
        | .error e => some (.error (.cipherError e))
        | .ok (key2, iv2) =>
          match cbcEncrypt config.cipher key2 iv2
              (pad (utf8Encode plain_text) (blockSize config.cipher)) with
          | none => some (.error (.cipherError "Data must be padded"))
          | some encrypted => some (.ok (b64encode (salt ++ encrypted)))

/-- The part of `JasyptEncryptor.decrypt` after key derivation: cipher
construction, CBC decryption, unpadding and UTF-8 decoding, with every
failure wrapped like the `except` clause of the source. -/
def decryptPost (config : AlgoConfig) (key iv ciphertext : Bytes) :
    Except JError Text :=
  match cipherNew config.cipher key iv with
  | .error e => .error (.decryptFailed (.cipherInit e))
  | .ok (key2, iv2) =>
    match cbcDecrypt config.cipher key2 iv2 ciphertext with
    | none => .error (.decryptFailed .badBlockLength)
    | some decrypted =>
      match unpad decrypted (blockSize config.cipher) with
      | none => .error (.decryptFailed .badPadding)
      | some unpadded =>
        match utf8Decode unpadded with
        | none => .error (.decryptFailed .badUtf8)
        | some t => .ok t

/-- `JasyptEncryptor.decrypt(encrypted_text, password, algorithm)`. -/
def decryptText (cfg : JasyptConfig) (encrypted_text : Text)
    (password : Option Text) (algorithm : Option Text) :
    Option (Except JError Text) :=
  let pwd := orText password cfg.password
  let algo := orTextD algorithm cfg.algorithm
  if textFalsy pwd then some (.error .missingPassword)
  else
    match ALGORITHMS.lookup algo with
    | none => some (.error (.unknownAlgorithm algo))
    | some config =>
      match b64decode encrypted_text with
      | none => some (.error (.decryptFailed .badBase64))
      | some encrypted_bytes =>
        let salt := encrypted_bytes.take 8
        let ciphertext := encrypted_bytes.drop 8
        match openssl_kdf (utf8Encode (pwd.getD [])) salt config.key_size
            config.iv_size (hashFn config.hash_algo) cfg.iterations with
        | none => none
        | some (key, iv) => some (decryptPost config key iv ciphertext)

/-- Module-level `decrypt(password, encrypted_text, algorithm)` =
`JasyptEncryptor.decrypt_with_config(encrypted_text, password, algorithm)`:
build an encryptor, then decrypt with the instance settings. -/
def decryptTop (password encrypted_text algorithm : Text) :
    Option (Except JError Text) :=
  match jasyptInit (some password) (some algorithm) none with
  | .error e => some (.error e)
  | .ok cfg => decryptText cfg encrypted_text none none

/-- `JasyptEncryptor.encrypt_config_value(plain_text)`: encrypt with the
instance settings and wrap in `ENC(...)`. -/
def encrypt_config_value (cfg : JasyptConfig) (salt : Bytes)
    (plain_text : Text) : Option (Except JError Text) :=
  match encryptWithSalt cfg salt plain_text none none with
  | none => none
  | some (.error e) => some (.error e)
  | some (.ok t) => some (.ok ("ENC(".data ++ t ++ ")".data))

/-- The wrapper-stripping step of `decrypt_config_value`:
`config_value.startswith('ENC(') and config_value.endswith(')')` selects
`config_value[4:-1]`, otherwise the value is used unchanged. -/
def unwrapEnvelope (config_value : Text) : Text :=
  if "ENC(".data.isPrefixOf config_value
      ∧ ")".data.isSuffixOf config_value then
    (config_value.drop 4).dropLast
  else config_value

/-- `JasyptEncryptor.decrypt_config_value(config_value)`. -/
def decrypt_config_value (cfg : JasyptConfig) (config_value : Text) :
    Option (Except JError Text) :=
  decryptText cfg (unwrapEnvelope config_value) none none

/-! ### Validity and length facts feeding the round-trip proof -/

theorem bytesOk_word32ToBytesLE (w : Nat) : bytesOk (word32ToBytesLE w) := by
  intro x hx
  simp only [word32ToBytesLE, List.mem_cons, List.not_mem_nil, or_false] at hx
  rcases hx with h | h | h | h <;> subst h <;> exact Nat.mod_lt _ (by omega)

theorem bytesOk_word32ToBytesBE (w : Nat) : bytesOk (word32ToBytesBE w) := by
  intro x hx
  simp only [word32ToBytesBE, List.mem_cons, List.not_mem_nil, or_false] at hx
  rcases hx with h | h | h | h <;> subst h <;> exact Nat.mod_lt _ (by omega)

theorem md5_length (msg : Bytes) : (md5 msg).length = 16 := by
  unfold md5
  rcases (chunks 64 (md5Pad msg)).foldl md5Compress md5Init with ⟨a, b, c, d⟩
  rfl

theorem md5_bytesOk (msg : Bytes) : bytesOk (md5 msg) := by
  unfold md5
  rcases (chunks 64 (md5Pad msg)).foldl md5Compress md5Init with ⟨a, b, c, d⟩
  exact bytesOk_append (bytesOk_append (bytesOk_append
    (bytesOk_word32ToBytesLE a) (bytesOk_word32ToBytesLE b))
    (bytesOk_word32ToBytesLE c)) (bytesOk_word32ToBytesLE d)

theorem sha1_length (msg : Bytes) : (sha1 msg).length = 20 := by
  unfold sha1
  rcases (chunks 64 (sha1Pad msg)).foldl sha1Compress sha1Init
    with ⟨a, b, c, d, e⟩
  rfl

theorem sha1_bytesOk (msg : Bytes) : bytesOk (sha1 msg) := by
  unfold sha1
  rcases (chunks 64 (sha1Pad msg)).foldl sha1Compress sha1Init
    with ⟨a, b, c, d, e⟩
  exact bytesOk_append (bytesOk_append (bytesOk_append (bytesOk_append
    (bytesOk_word32ToBytesBE a) (bytesOk_word32ToBytesBE b))
    (bytesOk_word32ToBytesBE c)) (bytesOk_word32ToBytesBE d))
    (bytesOk_word32ToBytesBE e)

theorem hashFn_bytesOk (hk : HashKind) (d : Bytes) : bytesOk (hashFn hk d) := by
  cases hk with
  | md5 => exact md5_bytesOk d
  | sha1 => exact sha1_bytesOk d

theorem iterHash_bytesOk {h : Bytes → Bytes} (hok : ∀ d, bytesOk (h d)) :
    ∀ (it : Nat) (d : Bytes), bytesOk d → bytesOk (iterHash h it d)
  | 0, d, hd => hd
  | n + 1, d, hd => iterHash_bytesOk hok n (h d) (hok d)

theorem kdfLoop_bytesOk {h : Bytes → Bytes} (hok : ∀ d, bytesOk (h d))
    {it : Nat} {ps : Bytes} {target : Nat} (hps : bytesOk ps) :
    ∀ (fuel : Nat) (m r : List Bytes), (∀ x ∈ m, bytesOk x) →
      kdfLoop h it ps target fuel m = some r → ∀ x ∈ r, bytesOk x := by
  intro fuel
  induction fuel with
  | zero =>
    intro m r hm hr
    unfold kdfLoop at hr
    by_cases hc : m.flatten.length < target
    · rw [if_pos hc] at hr; exact absurd hr (by simp)
    · rw [if_neg hc] at hr
      cases hr
      exact hm
  | succ f ih =>
    intro m r hm hr
    unfold kdfLoop at hr
    by_cases hc : m.flatten.length < target
    · rw [if_pos hc] at hr
      refine ih _ r ?_ hr
      intro x hx
      rcases List.mem_append.mp hx with h1 | h1
      · exact hm x h1
      · rw [List.mem_singleton.mp h1]
        apply iterHash_bytesOk hok
        cases hg : m.getLast? with
        | none => simpa [hg] using hps
        | some prev =>
          have hprev : bytesOk prev :=
            hm prev (List.mem_of_mem_getLast? (by rw [hg]; rfl))
          simpa [hg] using bytesOk_append hprev hps
    · rw [if_neg hc] at hr
      cases hr
      exact hm

theorem openssl_kdf_bytesOk {hash_algo : Bytes → Bytes}
    {pw salt : Bytes} {ks ivs : Nat} {iters : Int} {key iv : Bytes}
    (hok : ∀ d, bytesOk (hash_algo d)) (hpw : bytesOk pw)
    (hsalt : bytesOk salt)
    (hk : openssl_kdf pw salt ks ivs hash_algo iters = some (key, iv)) :
    bytesOk key ∧ bytesOk iv := by
  unfold openssl_kdf at hk
  cases hr : kdfLoop hash_algo iters.toNat (pw ++ salt) (ks + ivs)
      (ks + ivs + 1) [] with
  | none => rw [hr] at hk; exact absurd hk (by simp)
  | some m =>
    rw [hr] at hk
    simp only [Option.map_some] at hk
    have hall := kdfLoop_bytesOk hok (bytesOk_append hpw hsalt)
      (ks + ivs + 1) [] m (by intro x hx; simp at hx) hr
    have hflat : bytesOk m.flatten := by
      intro x hx
      obtain ⟨l, hl, hxl⟩ := List.mem_flatten.mp hx
      exact hall l hl x hxl
    have hkey : key = m.flatten.take ks := by
      have := congrArg Prod.fst (Option.some.inj hk)
      exact this.symm
    have hiv : iv = (m.flatten.drop ks).take ivs := by
      have := congrArg Prod.snd (Option.some.inj hk)
      exact this.symm
    subst hkey hiv
    exact ⟨fun x hx => hflat x (List.take_subset _ _ hx),
      fun x hx => hflat x
        (List.drop_subset _ _ (List.take_subset _ _ hx))⟩

theorem parityByte_lt (b : Nat) : parityByte b < 256 := by
  unfold parityByte
  have h1 : b &&& 254 ≤ 254 := Nat.and_le_right
  have h2 : (1 ^^^ ((b >>> 1) &&& 1) ^^^ ((b >>> 2) &&& 1) ^^^
      ((b >>> 3) &&& 1) ^^^ ((b >>> 4) &&& 1) ^^^ ((b >>> 5) &&& 1) ^^^
      ((b >>> 6) &&& 1) ^^^ ((b >>> 7) &&& 1)) < 2 := by
    have hb : ∀ k, (b >>> k) &&& 1 < 2 := by
      intro k
      rw [Nat.and_one_is_mod]
      omega
    have hx : ∀ x y : Nat, x < 2 → y < 2 → x ^^^ y < 2 :=
      fun x y hx hy => @Nat.xor_lt_two_pow _ _ 1 hx hy
    exact hx _ _ (hx _ _ (hx _ _ (hx _ _ (hx _ _ (hx _ _ (hx _ _
      (by omega) (hb 1)) (hb 2)) (hb 3)) (hb 4)) (hb 5)) (hb 6)) (hb 7)
  calc (b &&& 254) |||
      (1 ^^^ ((b >>> 1) &&& 1) ^^^ ((b >>> 2) &&& 1) ^^^ ((b >>> 3) &&& 1)
        ^^^ ((b >>> 4) &&& 1) ^^^ ((b >>> 5) &&& 1) ^^^ ((b >>> 6) &&& 1)
        ^^^ ((b >>> 7) &&& 1))
      < 256 := @Nat.or_lt_two_pow _ _ 8 (by omega) (by omega)

theorem cipherNew_iv {kind : CipherKind} {key iv key2 iv2 : Bytes}
    (h : cipherNew kind key iv = .ok (key2, iv2)) :
    iv2 = iv ∧ iv.length = 8 := by
  cases kind with
  | des =>
    simp only [cipherNew] at h
    split_ifs at h with h1 h2 <;>
      first
      | exact Except.noConfusion h
      | (rw [Except.ok.injEq, Prod.mk.injEq] at h
         exact ⟨h.2.symm, by omega⟩)
  | des3 =>
    simp only [cipherNew] at h
    cases hp : adjustKeyParity key with
    | error e => rw [hp] at h; exact absurd h (by simp)
    | ok k =>
      rw [hp] at h
      dsimp only at h
      split_ifs at h with h1 <;>
        first
        | exact Except.noConfusion h
        | (rw [Except.ok.injEq, Prod.mk.injEq] at h
           exact ⟨h.2.symm, by omega⟩)

theorem cipherNew_key_bytesOk {kind : CipherKind} {key iv key2 iv2 : Bytes}
    (hkey : bytesOk key)
    (h : cipherNew kind key iv = .ok (key2, iv2)) : bytesOk key2 := by
  cases kind with
  | des =>
    simp only [cipherNew] at h
    split_ifs at h with h1 h2 <;>
      first
      | exact Except.noConfusion h
      | (rw [Except.ok.injEq, Prod.mk.injEq] at h
         rw [← h.1]
         exact hkey)
  | des3 =>
    simp only [cipherNew] at h
    cases hp : adjustKeyParity key with
    | error e => rw [hp] at h; exact absurd h (by simp)
    | ok k =>
      rw [hp] at h
      dsimp only at h
      split_ifs at h with h1 <;>
        first
        | exact Except.noConfusion h
        | (rw [Except.ok.injEq, Prod.mk.injEq] at h
           rw [← h.1]
           unfold adjustKeyParity at hp
           dsimp only at hp
           split_ifs at hp with h2 h3 <;>
             first
             | exact absurd hp (by exact fun hc => Except.noConfusion hc)
             | (rw [Except.ok.injEq] at hp
                rw [← hp]
                intro x hx
                obtain ⟨b, _, hb⟩ := List.mem_map.mp hx
                rw [← hb]
                exact parityByte_lt b))

theorem pad_length_mod (data : Bytes) {bs : Nat} (hbs : 0 < bs) :
    (pad data bs).length % bs = 0 := by
  have hmod : data.length % bs < bs := Nat.mod_lt _ hbs
  rw [pad_length]
  rw [Nat.add_mod]
  rcases Nat.lt_or_ge (bs - data.length % bs) bs with hlt | hge
  · rw [Nat.mod_eq_of_lt hlt]
    have hsum : data.length % bs + (bs - data.length % bs) = bs := by omega
    rw [hsum, Nat.mod_self]
  · have hz : data.length % bs = 0 := by omega
    have hpeq : bs - data.length % bs = bs := by omega
    rw [hpeq, Nat.mod_self, hz]
    simp

/-- Full analysis of a successful encrypt call: the token decodes to
`salt ++ ciphertext` with the ciphertext one padded block of the UTF-8
plaintext, and decryption with the same settings recovers the plaintext. -/
theorem encrypt_success_analysis (cfg : JasyptConfig) (salt : Bytes)
    (p : Text) (password algorithm : Option Text) (token : Text)
    (hsalt : salt.length = 8) (hsok : bytesOk salt)
    (henc : encryptWithSalt cfg salt p password algorithm = some (.ok token)) :
    ∃ ct : Bytes,
      b64decode token = some (salt ++ ct) ∧
      ct.length = (utf8Encode p).length + (8 - (utf8Encode p).length % 8) ∧
      decryptText cfg token password algorithm = some (.ok p) := by
  unfold encryptWithSalt at henc
  unfold decryptText
  dsimp only at henc ⊢
  by_cases hpw : textFalsy (orText password cfg.password) = true
  · rw [if_pos hpw] at henc
    exact absurd (Option.some.inj henc) (by simp)
  rw [if_neg hpw] at henc ⊢
  cases hlook : ALGORITHMS.lookup (orTextD algorithm cfg.algorithm) with
  | none => rw [hlook] at henc; simp at henc
  | some config =>
  rw [hlook] at henc
  dsimp only at henc ⊢
  cases hkdf : openssl_kdf
      (utf8Encode ((orText password cfg.password).getD [])) salt
      config.key_size config.iv_size (hashFn config.hash_algo)
      cfg.iterations with
  | none => rw [hkdf] at henc; simp at henc
  | some kv =>
  rcases kv with ⟨key, iv⟩
  rw [hkdf] at henc
  dsimp only at henc
  cases hnew : cipherNew config.cipher key iv with
  | error e => rw [hnew] at henc; simp at henc
  | ok kv2 =>
  rcases kv2 with ⟨key2, iv2⟩
  rw [hnew] at henc
  dsimp only at henc
  obtain ⟨hiv2, hivlen⟩ := cipherNew_iv hnew
  have hbs256 : blockSize config.cipher < 256 := by
    cases config.cipher <;> decide
  have hbspos : 0 < blockSize config.cipher := by
    cases config.cipher <;> decide
  have hpadok : bytesOk (pad (utf8Encode p) (blockSize config.cipher)) :=
    bytesOk_pad (bytesOk_utf8Encode p) hbs256
  have hpadmod :
      (pad (utf8Encode p) (blockSize config.cipher)).length % 8 = 0 := by
    have hp8 := pad_length_mod (utf8Encode p) hbspos
    cases hcc : config.cipher <;> rw [hcc] at hp8 <;> simpa using hp8
  have hivok : bytesOk iv :=
    (openssl_kdf_bytesOk (hashFn_bytesOk _) (bytesOk_utf8Encode _) hsok
      hkdf).2
  have hiv2ok : bytesOk iv2 := by rw [hiv2]; exact hivok
  have hiv2len : iv2.length = 8 := by rw [hiv2]; exact hivlen
  obtain ⟨ct, hcte, hctd, hctlen, hctok⟩ :=
    cbc_roundtrip config.cipher key2 iv2
      (pad (utf8Encode p) (blockSize config.cipher)) hpadmod hpadok
      hiv2len hiv2ok
  rw [hcte] at henc
  dsimp only at henc
  have htok : token = b64encode (salt ++ ct) :=
    (Except.ok.inj (Option.some.inj henc)).symm
  have hbs8 : blockSize config.cipher = 8 := by cases config.cipher <;> rfl
  refine ⟨ct, ?_, ?_, ?_⟩
  · rw [htok]
    exact b64decode_b64encode (bytesOk_append hsok hctok)
  · rw [hctlen, pad_length, hbs8]
  · rw [htok]
    rw [b64decode_b64encode (bytesOk_append hsok hctok)]
    dsimp only
    rw [List.take_left' hsalt, List.drop_left' hsalt, hkdf]
    dsimp only
    unfold decryptPost
    rw [hnew]
    dsimp only
    rw [hctd]
    dsimp only
    rw [unpad_pad _ _ hbspos]
    dsimp only
    rw [utf8Decode_utf8Encode]

/-- Decryption with the same configuration and per-call arguments inverts
encryption, for any salt the encrypt call may have drawn. -/
theorem encrypt_decrypt_roundtrip (cfg : JasyptConfig) (salt : Bytes)
    (p : Text) (password algorithm : Option Text) (token : Text)
    (hsalt : salt.length = 8) (hsok : bytesOk salt)
    (henc : encryptWithSalt cfg salt p password algorithm = some (.ok token)) :
    decryptText cfg token password algorithm = some (.ok p) :=
  (encrypt_success_analysis cfg salt p password algorithm token hsalt hsok
    henc).choose_spec.2.2

theorem iterHash_add (h : Bytes → Bytes) (m n : Nat) (d : Bytes) :
    iterHash h (m + n) d = iterHash h n (iterHash h m d) := by
  induction m generalizing d with
  | zero => rw [Nat.zero_add]; rfl
  | succ k ih =>
    have he : k + 1 + n = (k + n) + 1 := by omega
    rw [he]
    show iterHash h (k + n) (h d) = iterHash h n (iterHash h k (h d))
    exact ih (h d)

/-- When a single digest already covers `key_size + iv_size` bytes, the KDF
runs exactly one round. -/
theorem openssl_kdf_one_round (h : Bytes → Bytes) (pw salt : Bytes)
    (ks ivs : Nat) (iters : Int) (digest : Bytes)
    (hpos : 0 < ks + ivs)
    (hd : iterHash h iters.toNat (pw ++ salt) = digest)
    (hlen : ¬ digest.length < ks + ivs) :
    openssl_kdf pw salt ks ivs h iters
      = some (digest.take ks, (digest.drop ks).take ivs) := by
  unfold openssl_kdf
  obtain ⟨g, hg⟩ : ∃ g, ks + ivs = g + 1 := ⟨ks + ivs - 1, by omega⟩
  have h1 : kdfLoop h iters.toNat (pw ++ salt) (ks + ivs) (ks + ivs + 1) []
      = kdfLoop h iters.toNat (pw ++ salt) (ks + ivs) (ks + ivs) [digest] := by
    conv_lhs => rw [kdfLoop]
    rw [if_pos (by simpa using hpos)]
    rw [show ([] : List Bytes) ++ [iterHash h iters.toNat
      (match ([] : List Bytes).getLast? with
       | none => pw ++ salt
       | some prev => prev ++ (pw ++ salt))] = [iterHash h iters.toNat
         (pw ++ salt)] from rfl]
    rw [hd]
  rw [h1, hg]
  have h2 : kdfLoop h iters.toNat (pw ++ salt) (g + 1) (g + 1) [digest]
      = some [digest] := by
    conv_lhs => rw [kdfLoop]
    rw [if_neg (by
      simp only [List.flatten_cons, List.flatten_nil, List.append_nil]
      omega)]
  rw [h2]
  simp only [Option.map_some]
  show some (([digest].flatten.take ks, ([digest].flatten.drop ks).take ivs))
    = _
  simp only [List.flatten_cons, List.flatten_nil, List.append_nil]

/-! ### The fixed Java Jasypt test vector -/

def c3pwBytes : Bytes := [88, 55, 80, 51, 76, 57, 81, 50]

def c3salt : Bytes := [223, 108, 136, 231, 249, 89, 142, 145]

def c3M0 : Bytes :=
  [172, 122, 134, 166, 209, 5, 238, 165, 152, 157, 37, 168, 170, 143, 30, 174]

set_option maxRecDepth 100000 in
theorem c3_chunk1 : iterHash md5 100 (c3pwBytes ++ c3salt)
    = [89, 126, 218, 61, 23, 201, 79, 192, 2, 102, 97, 159, 44, 81, 156, 171] := by
  decide!

set_option maxRecDepth 100000 in
theorem c3_chunk2 : iterHash md5 100 [89, 126, 218, 61, 23, 201, 79, 192, 2, 102, 97, 159, 44, 81, 156, 171]
    = [219, 166, 68, 98, 66, 50, 45, 52, 124, 71, 211, 103, 98, 91, 70, 84] := by
  decide!

set_option maxRecDepth 100000 in
theorem c3_chunk3 : iterHash md5 100 [219, 166, 68, 98, 66, 50, 45, 52, 124, 71, 211, 103, 98, 91, 70, 84]
    = [223, 25, 8, 197, 210, 44, 237, 209, 159, 183, 40, 98, 216, 179, 67, 242] := by
  decide!

set_option maxRecDepth 100000 in
theorem c3_chunk4 : iterHash md5 100 [223, 25, 8, 197, 210, 44, 237, 209, 159, 183, 40, 98, 216, 179, 67, 242]
    = [86, 203, 227, 193, 228, 214, 190, 172, 171, 225, 96, 64, 244, 225, 62, 143] := by
  decide!

set_option maxRecDepth 100000 in
theorem c3_chunk5 : iterHash md5 100 [86, 203, 227, 193, 228, 214, 190, 172, 171, 225, 96, 64, 244, 225, 62, 143]
    = [26, 4, 25, 27, 235, 117, 6, 113, 178, 24, 63, 125, 149, 106, 99, 20] := by
  decide!

set_option maxRecDepth 100000 in
theorem c3_chunk6 : iterHash md5 100 [26, 4, 25, 27, 235, 117, 6, 113, 178, 24, 63, 125, 149, 106, 99, 20]
    = [80, 108, 113, 157, 43, 51, 218, 99, 31, 156, 67, 166, 14, 132, 249, 163] := by
  decide!

set_option maxRecDepth 100000 in
theorem c3_chunk7 : iterHash md5 100 [80, 108, 113, 157, 43, 51, 218, 99, 31, 156, 67, 166, 14, 132, 249, 163]
    = [251, 107, 144, 108, 115, 148, 36, 54, 5, 140, 128, 192, 118, 78, 250, 236] := by
  decide!

set_option maxRecDepth 100000 in
theorem c3_chunk8 : iterHash md5 100 [251, 107, 144, 108, 115, 148, 36, 54, 5, 140, 128, 192, 118, 78, 250, 236]
    = [154, 240, 65, 67, 163, 94, 11, 160, 141, 160, 77, 185, 185, 179, 75, 213] := by
  decide!

set_option maxRecDepth 100000 in
theorem c3_chunk9 : iterHash md5 100 [154, 240, 65, 67, 163, 94, 11, 160, 141, 160, 77, 185, 185, 179, 75, 213]
    = [19, 51, 254, 1, 57, 157, 59, 134, 212, 247, 38, 186, 33, 239, 63, 12] := by
  decide!

set_option maxRecDepth 100000 in
theorem c3_chunk10 : iterHash md5 100 [19, 51, 254, 1, 57, 157, 59, 134, 212, 247, 38, 186, 33, 239, 63, 12]
    = c3M0 := by
  decide!

theorem c3_iter1000 : iterHash md5 1000 (c3pwBytes ++ c3salt) = c3M0 := by
  rw [show (1000 : Nat) = 100 + 900 from rfl, iterHash_add, c3_chunk1,
    show (900 : Nat) = 100 + 800 from rfl, iterHash_add, c3_chunk2,
    show (800 : Nat) = 100 + 700 from rfl, iterHash_add, c3_chunk3,
    show (700 : Nat) = 100 + 600 from rfl, iterHash_add, c3_chunk4,
    show (600 : Nat) = 100 + 500 from rfl, iterHash_add, c3_chunk5,
    show (500 : Nat) = 100 + 400 from rfl, iterHash_add, c3_chunk6,
    show (400 : Nat) = 100 + 300 from rfl, iterHash_add, c3_chunk7,
    show (300 : Nat) = 100 + 200 from rfl, iterHash_add, c3_chunk8,
    show (200 : Nat) = 100 + 100 from rfl, iterHash_add, c3_chunk9,
    c3_chunk10]

theorem c3_kdf : openssl_kdf c3pwBytes c3salt 8 8 md5 1000
    = some ([172, 122, 134, 166, 209, 5, 238, 165],
            [152, 157, 37, 168, 170, 143, 30, 174]) := by
  rw [openssl_kdf_one_round md5 c3pwBytes c3salt 8 8 1000 c3M0 (by omega)
    c3_iter1000 (by decide)]
  rfl

/-- **C2**: for every non-empty UTF-8 plaintext, every supported profile
name and every password, decrypting a token produced by `encrypt` with the
same password and algorithm returns the original plaintext, for any salt the
encrypt call may have drawn. -/
theorem roundtrip_all_profiles (cfg : JasyptConfig) (salt : Bytes)
    (p k a : Text) (token : Text)
    (hp : p ≠ [])
    (ha : a = "PBEWithMD5AndDES".data ∨ a = "PBEWithMD5AndTripleDES".data
      ∨ a = "PBEWithSHA1AndDESede".data)
    (hsalt : salt.length = 8) (hsok : bytesOk salt)
    (henc : encryptWithSalt cfg salt p (some k) (some a) = some (.ok token)) :
    decryptText cfg token (some k) (some a) = some (.ok p) :=
  encrypt_decrypt_roundtrip cfg salt p (some k) (some a) token hsalt hsok henc

/-- A one-iteration configuration used to instantiate the round-trip claims
at concrete inputs. -/
def wcfg : JasyptConfig := ⟨some "p".data, "PBEWithMD5AndDES".data, 1⟩

/-- Witness for C2 at a concrete input. -/
theorem roundtrip_all_profiles_witness :
    ("hi".data ≠ ([] : Text)) ∧
    ("PBEWithMD5AndDES".data = "PBEWithMD5AndDES".data ∨
      "PBEWithMD5AndDES".data = "PBEWithMD5AndTripleDES".data ∨
      "PBEWithMD5AndDES".data = "PBEWithSHA1AndDESede".data) ∧
    ([0, 1, 2, 3, 4, 5, 6, 7] : Bytes).length = 8 ∧
    bytesOk [0, 1, 2, 3, 4, 5, 6, 7] ∧
    encryptWithSalt wcfg [0, 1, 2, 3, 4, 5, 6, 7] "hi".data
      (some "p".data) (some "PBEWithMD5AndDES".data)
      = some (.ok "AAECAwQFBgdSEb83hSHs4A==".data) ∧
    decryptText wcfg "AAECAwQFBgdSEb83hSHs4A==".data
      (some "p".data) (some "PBEWithMD5AndDES".data)
      = some (.ok "hi".data) :=
  ⟨by decide, Or.inl rfl, by decide, by decide, by decide!,
    roundtrip_all_profiles wcfg [0, 1, 2, 3, 4, 5, 6, 7] "hi".data
      "p".data "PBEWithMD5AndDES".data "AAECAwQFBgdSEb83hSHs4A==".data
      (by decide) (Or.inl rfl) (by decide) (by decide) (by decide!)⟩

/-- Success path of `decryptText`: when the password is truthy, the
algorithm resolves in the registry, the token Base64-decodes and the KDF
returns a key/iv pair, the result is `decryptPost` on the derived material
and the bytes after the 8-byte salt. -/
theorem decryptText_success (cfg : JasyptConfig) (tok : Text)
    (password algorithm : Option Text) (config : AlgoConfig)
    (eb key iv : Bytes)
    (hpwd : textFalsy (orText password cfg.password) = false)
    (hlookup : ALGORITHMS.lookup (orTextD algorithm cfg.algorithm)
      = some config)
    (hb64 : b64decode tok = some eb)
    (hkdf : openssl_kdf (utf8Encode ((orText password cfg.password).getD []))
        (eb.take 8) config.key_size config.iv_size (hashFn config.hash_algo)
        cfg.iterations = some (key, iv)) :
    decryptText cfg tok password algorithm
      = some (decryptPost config key iv (eb.drop 8)) := by
  unfold decryptText
  simp only [hpwd, hlookup, hb64, hkdf, Bool.false_eq_true, if_false]

theorem c3_step_init :
    jasyptInit (some "X7P3L9Q2".data) (some "PBEWithMD5AndDES".data) none
      = .ok ⟨some "X7P3L9Q2".data, "PBEWithMD5AndDES".data, 1000⟩ := by
  decide!

theorem c3_step_lookup :
    List.lookup (orTextD none ['P', 'B', 'E', 'W', 'i', 't', 'h', 'M', 'D', '5', 'A', 'n', 'd', 'D', 'E', 'S']) ALGORITHMS
      = some ⟨CipherKind.des, 8, 8, HashKind.md5⟩ := by
  decide!

theorem c3_step_b64 :
    b64decode ['3', '2', 'y', 'I', '5', '/', 'l', 'Z', 'j', 'p', 'E', '3', 'b', 'y', 'A', '/', 'w', 'v', 'r', 'P', 'f', 'w', '=', '=']
      = some [223, 108, 136, 231, 249, 89, 142, 145,
              55, 111, 32, 63, 194, 250, 207, 127] := by
  decide!

theorem c3_step_kdf :
    openssl_kdf (utf8Encode ((orText none (some ['X', '7', 'P', '3', 'L', '9', 'Q', '2'])).getD []))
      (List.take 8 ([223, 108, 136, 231, 249, 89, 142, 145,
        55, 111, 32, 63, 194, 250, 207, 127] : Bytes)) 8 8
      (hashFn HashKind.md5) 1000
      = some ([172, 122, 134, 166, 209, 5, 238, 165],
              [152, 157, 37, 168, 170, 143, 30, 174]) := by
  rw [show utf8Encode ((orText none (some ['X', '7', 'P', '3', 'L', '9', 'Q', '2'])).getD [])
      = c3pwBytes from by decide!]
  rw [show List.take 8 ([223, 108, 136, 231, 249, 89, 142, 145,
      55, 111, 32, 63, 194, 250, 207, 127] : Bytes) = c3salt from by decide!]
  exact c3_kdf

/-- **C3**: decrypting the fixed Java-produced token
`32yI5/lZjpE3byA/wvrPfw==` with password `X7P3L9Q2` and algorithm
`PBEWithMD5AndDES` (default 1000 iterations) succeeds and returns exactly the
original plaintext `cem123`. -/
theorem decrypt_java_vector :
    decryptTop "X7P3L9Q2".data "32yI5/lZjpE3byA/wvrPfw==".data
      "PBEWithMD5AndDES".data = some (.ok "cem123".data) := by
  unfold decryptTop
  rw [c3_step_init]
  dsimp only
  rw [decryptText_success
      ⟨some ['X', '7', 'P', '3', 'L', '9', 'Q', '2'],
        ['P', 'B', 'E', 'W', 'i', 't', 'h', 'M', 'D', '5', 'A', 'n', 'd', 'D', 'E', 'S'], 1000⟩
      ['3', '2', 'y', 'I', '5', '/', 'l', 'Z', 'j', 'p', 'E', '3', 'b', 'y', 'A', '/', 'w', 'v', 'r', 'P', 'f', 'w', '=', '=']
      none none ⟨CipherKind.des, 8, 8, HashKind.md5⟩
      [223, 108, 136, 231, 249, 89, 142, 145,
        55, 111, 32, 63, 194, 250, 207, 127]
      [172, 122, 134, 166, 209, 5, 238, 165]
      [152, 157, 37, 168, 170, 143, 30, 174]
      (by decide!) c3_step_lookup c3_step_b64 c3_step_kdf]
  decide!

/-- **C4**: the Base64-decoded bytes of a successful encrypt token are
`salt || ciphertext`, the decoded length is `8 + len(ciphertext)`, and the
ciphertext is the UTF-8 plaintext length rounded up to the next multiple of
the 8-byte block size with at least one byte of padding (a full extra block
when already aligned). -/
theorem token_structure (cfg : JasyptConfig) (salt : Bytes) (p : Text)
    (password algorithm : Option Text) (token : Text)
    (hsalt : salt.length = 8) (hsok : bytesOk salt)
    (henc : encryptWithSalt cfg salt p password algorithm = some (.ok token)) :
    ∃ ciphertext : Bytes,
      b64decode token = some (salt ++ ciphertext) ∧
      (salt ++ ciphertext).length = 8 + ciphertext.length ∧
      ciphertext.length
        = (utf8Encode p).length + (8 - (utf8Encode p).length % 8) ∧
      0 < 8 - (utf8Encode p).length % 8 ∧
      ciphertext.length % 8 = 0 := by
  obtain ⟨ct, hdec, hlen, _⟩ :=
    encrypt_success_analysis cfg salt p password algorithm token hsalt hsok
      henc
  refine ⟨ct, hdec, ?_, hlen, ?_, ?_⟩
  · rw [List.length_append, hsalt]
  · have := @Nat.mod_lt (utf8Encode p).length 8 (by omega)
    omega
  · rw [hlen]
    have h8 : (utf8Encode p).length % 8 < 8 :=
      Nat.mod_lt _ (by omega)
    omega

/-- Witness for C4 at a concrete input. -/
theorem token_structure_witness :
    ([0, 1, 2, 3, 4, 5, 6, 7] : Bytes).length = 8 ∧
    bytesOk [0, 1, 2, 3, 4, 5, 6, 7] ∧
    encryptWithSalt wcfg [0, 1, 2, 3, 4, 5, 6, 7] "hi".data none none
      = some (.ok "AAECAwQFBgdSEb83hSHs4A==".data) ∧
    ∃ ciphertext : Bytes,
      b64decode "AAECAwQFBgdSEb83hSHs4A==".data
        = some ([0, 1, 2, 3, 4, 5, 6, 7] ++ ciphertext) ∧
      ([0, 1, 2, 3, 4, 5, 6, 7] ++ ciphertext).length
        = 8 + ciphertext.length ∧
      ciphertext.length = (utf8Encode "hi".data).length
        + (8 - (utf8Encode "hi".data).length % 8) ∧
      0 < 8 - (utf8Encode "hi".data).length % 8 ∧
      ciphertext.length % 8 = 0 :=
  ⟨by decide, by decide, by decide!,
    token_structure wcfg [0, 1, 2, 3, 4, 5, 6, 7] "hi".data none none
      "AAECAwQFBgdSEb83hSHs4A==".data (by decide) (by decide) (by decide!)⟩

/-! ## Iteration-count handling (claim C5) -/

/-- Constructing an engine with `iterations = -1` succeeds: `__init__` has no
check for non-positive iteration counts (`iterations or 1000` only replaces
the falsy value `0`). -/
theorem c5_counterexample :
    jasyptInit (some "p".data) (some "PBEWithMD5AndDES".data) (some (-1))
      = .ok ⟨some "p".data, "PBEWithMD5AndDES".data, -1⟩ := by
  decide!

/-- Claim C5, amended: a non-positive iteration count is not rejected.
`iterations = 0` is falsy in Python and is silently replaced by the default
1000; a negative count is accepted unchanged by the constructor, and key
derivation still runs with it, performing `range(i) = 0` hash applications
per round exactly as with `iterations = 0`. -/
theorem iterations_not_validated (pw : Option Text) (a : Text)
    (c : AlgoConfig) (i : Int)
    (ha : ALGORITHMS.lookup a = some c) (hane : a ≠ []) (hi : i < 0) :
    jasyptInit pw (some a) (some i) = .ok ⟨pw, a, i⟩ ∧
    jasyptInit pw (some a) (some 0) = .ok ⟨pw, a, 1000⟩ ∧
    ∀ ps salt ks vs h, openssl_kdf ps salt ks vs h i
      = openssl_kdf ps salt ks vs h 0 := by
  have hor : orTextD (some a) DEFAULT_ALGORITHM = a := by
    simp only [orTextD, if_neg hane]
  refine ⟨?_, ?_, ?_⟩
  · simp only [jasyptInit, hor, ha, Option.isNone_some, Bool.false_eq_true,
      if_false, if_neg (show ¬i = 0 by omega)]
  · simp only [jasyptInit, hor, ha, Option.isNone_some, Bool.false_eq_true,
      if_false, if_pos rfl]
    norm_num [DEFAULT_ITERATIONS]
  · intro ps salt ks vs h
    simp only [openssl_kdf, Int.toNat_of_nonpos hi.le, Int.toNat_zero]

/-- Instance of the amended C5 statement at concrete inputs. -/
theorem iterations_not_validated_witness :
    ALGORITHMS.lookup "PBEWithMD5AndDES".data
      = some ⟨CipherKind.des, 8, 8, HashKind.md5⟩ ∧
    "PBEWithMD5AndDES".data ≠ ([] : Text) ∧ (-2 : Int) < 0 ∧
    jasyptInit (some "q".data) (some "PBEWithMD5AndDES".data) (some (-2))
      = .ok ⟨some "q".data, "PBEWithMD5AndDES".data, -2⟩ ∧
    openssl_kdf [1] [2] 1 1 md5 (-2) = openssl_kdf [1] [2] 1 1 md5 0 :=
  ⟨by decide!, by decide, by decide,
    (iterations_not_validated (some "q".data) "PBEWithMD5AndDES".data
      ⟨CipherKind.des, 8, 8, HashKind.md5⟩ (-2)
      (by decide!) (by decide) (by decide)).1,
    (iterations_not_validated (some "q".data) "PBEWithMD5AndDES".data
      ⟨CipherKind.des, 8, 8, HashKind.md5⟩ (-2)
      (by decide!) (by decide) (by decide)).2.2 [1] [2] 1 1 md5⟩

/-! ## Malformed-token handling (claim C6) -/

theorem utf8EncodeChar_ne_nil (c : Char) : utf8EncodeChar c ≠ [] := by
  unfold utf8EncodeChar
  dsimp only
  split
  · simp
  · split
    · simp
    · split <;> simp

theorem utf8Encode_ne_nil {s : Text} (hs : s ≠ []) : utf8Encode s ≠ [] := by
  cases s with
  | nil => exact absurd rfl hs
  | cons c cs =>
    unfold utf8Encode
    simp only [List.map_cons, List.flatten_cons]
    intro hnil
    exact utf8EncodeChar_ne_nil c (List.append_eq_nil.mp hnil).1

theorem iterHash_hashFn_ne_nil (hk : HashKind) (it : Nat) (x : Bytes)
    (hx : x ≠ []) : iterHash (hashFn hk) it x ≠ [] := by
  induction it generalizing x with
  | zero => exact hx
  | succ n ih =>
    show iterHash (hashFn hk) n (hashFn hk x) ≠ []
    apply ih
    cases hk with
    | md5 =>
      intro hnil
      have h := md5_length x
      rw [show md5 x = [] from hnil] at h
      simp at h
    | sha1 =>
      intro hnil
      have h := sha1_length x
      rw [show sha1 x = [] from hnil] at h
      simp at h

theorem textFalsy_false_getD {pw : Option Text}
    (h : textFalsy pw = false) : pw.getD [] ≠ [] := by
  cases pw with
  | none => simp [textFalsy] at h
  | some s =>
    simp only [textFalsy, List.isEmpty_iff] at h
    simpa using h

/-- A Base64 token with an invalid character decrypts successfully: Python
`base64.b64decode` (without `validate=True`) silently discards characters
outside the Base64 alphabet, so the `!`-prefixed token decodes to the same
bytes as the valid token and decryption returns a plaintext instead of
raising a malformed-token error. -/
theorem c6_counterexample :
    decryptText ⟨some "p".data, "PBEWithMD5AndDES".data, 1⟩
      "!AAECAwQFBgdSEb83hSHs4A==".data none none
      = some (.ok "hi".data) := by
  decide!

/-- Claim C6, amended: `decrypt` performs no Base64 validation and no
decoded-length check.  When the decoded bytes are shorter than the 8-byte
salt, the whole decoded string is taken as salt, key derivation still runs,
and the empty ciphertext fails later (cipher construction or the unpadding
of an empty buffer), surfacing as the single unified decryption-failure
error — not as a distinct malformed-token error. -/
theorem malformed_token_unified_errors (cfg : JasyptConfig) (tok : Text)
    (password algorithm : Option Text) (config : AlgoConfig) (eb : Bytes)
    (hpwd : textFalsy (orText password cfg.password) = false)
    (hlookup : ALGORITHMS.lookup (orTextD algorithm cfg.algorithm)
      = some config)
    (hb64 : b64decode tok = some eb)
    (hshort : eb.length < 8) :
    ∃ c : DecryptCause, decryptText cfg tok password algorithm
      = some (.error (.decryptFailed c)) := by
  have hps : utf8Encode ((orText password cfg.password).getD []) ≠ [] :=
    utf8Encode_ne_nil (textFalsy_false_getD hpwd)
  obtain ⟨key, iv, hkdf, hkey, hiv⟩ :=
    @openssl_kdf_lengths (hashFn config.hash_algo) cfg.iterations
      (utf8Encode ((orText password cfg.password).getD []))
      (eb.take 8) config.key_size config.iv_size
      (fun m => by
        intro h0
        refine iterHash_hashFn_ne_nil config.hash_algo cfg.iterations.toNat _
          ?_ (List.length_eq_zero.mp h0)
        cases m.getLast? with
        | none =>
          dsimp only
          intro hnil
          exact hps (List.append_eq_nil.mp hnil).1
        | some prev =>
          dsimp only
          intro hnil
          exact hps (List.append_eq_nil.mp
            (List.append_eq_nil.mp hnil).2).1)
  rw [decryptText_success cfg tok password algorithm config eb key iv
    hpwd hlookup hb64 hkdf]
  have hdrop : eb.drop 8 = [] := List.drop_eq_nil_of_le (by omega)
  rw [hdrop]
  unfold decryptPost
  cases hnew : cipherNew config.cipher key iv with
  | error e => exact ⟨.cipherInit e, rfl⟩
  | ok kv =>
    rcases kv with ⟨key2, iv2⟩
    dsimp only
    rw [show cbcDecrypt config.cipher key2 iv2 [] = some [] from by
      unfold cbcDecrypt
      rw [if_pos (by simp)]
      rfl]
    dsimp only
    rw [show unpad [] (blockSize config.cipher) = none from by
      unfold unpad
      rw [if_pos (show ([] : Bytes).length = 0 from rfl)]]
    exact ⟨.badPadding, rfl⟩

/-- Instance of the amended C6 statement at a concrete short token. -/
theorem malformed_token_unified_errors_witness :
    textFalsy (orText none (some "p".data)) = false ∧
    ALGORITHMS.lookup (orTextD none "PBEWithMD5AndDES".data)
      = some ⟨CipherKind.des, 8, 8, HashKind.md5⟩ ∧
    b64decode "AAE=".data = some [0, 1] ∧
    ([0, 1] : Bytes).length < 8 ∧
    ∃ c : DecryptCause,
      decryptText ⟨some "p".data, "PBEWithMD5AndDES".data, 1⟩
        "AAE=".data none none = some (.error (.decryptFailed c)) :=
  ⟨by decide, by decide!, by decide!, by decide,
    malformed_token_unified_errors
      ⟨some "p".data, "PBEWithMD5AndDES".data, 1⟩ "AAE=".data none none
      ⟨CipherKind.des, 8, 8, HashKind.md5⟩ [0, 1]
      (by decide) (by decide!) (by decide!) (by decide)⟩

/-! ## Algorithm registry lookup (claim C7) -/

theorem lookup_ALGORITHMS_eq_none {a : Text}
    (h1 : a ≠ "PBEWithMD5AndDES".data)
    (h2 : a ≠ "PBEWithMD5AndTripleDES".data)
    (h3 : a ≠ "PBEWithSHA1AndDESede".data) :
    ALGORITHMS.lookup a = none := by
  simp only [ALGORITHMS, List.lookup,
    beq_eq_false_iff_ne.mpr h1, beq_eq_false_iff_ne.mpr h2,
    beq_eq_false_iff_ne.mpr h3]

/-- Constructing an engine with the empty algorithm name succeeds: the empty
string is falsy, so `algorithm or DEFAULT_ALGORITHM` silently substitutes
the default instead of raising a configuration error, although `''` is
outside the registry. -/
theorem c7_counterexample :
    jasyptInit (some "p".data) (some []) none
      = .ok ⟨some "p".data, "PBEWithMD5AndDES".data, 1000⟩ := by
  decide!

/-- Claim C7, amended: profile lookup is case-sensitive and exact over the
three registered names, and every NON-EMPTY name outside the registry is
rejected with an unknown-algorithm configuration error by the constructor
and by encrypt/decrypt (before any key derivation or cipher use, as the
result does not depend on the data arguments); the empty name, however,
silently falls back to the default algorithm. -/
theorem algorithm_lookup_exact (a : Text)
    (hne : a ≠ [])
    (h1 : a ≠ "PBEWithMD5AndDES".data)
    (h2 : a ≠ "PBEWithMD5AndTripleDES".data)
    (h3 : a ≠ "PBEWithSHA1AndDESede".data) :
    (∀ pw iters, jasyptInit pw (some a) iters
      = .error (.unknownAlgorithm a)) ∧
    (∀ cfg salt p password, textFalsy (orText password cfg.password) = false →
      encryptWithSalt cfg salt p password (some a)
        = some (.error (.unknownAlgorithm a))) ∧
    (∀ cfg tok password, textFalsy (orText password cfg.password) = false →
      decryptText cfg tok password (some a)
        = some (.error (.unknownAlgorithm a))) := by
  have hnone := lookup_ALGORITHMS_eq_none h1 h2 h3
  have hor : ∀ d, orTextD (some a) d = a := fun d => by
    simp only [orTextD, if_neg hne]
  refine ⟨fun pw iters => ?_, fun cfg salt p password hpw => ?_,
    fun cfg tok password hpw => ?_⟩
  · simp only [jasyptInit, hor, hnone, Option.isNone_none]
    rw [if_pos True.intro]
  · simp only [encryptWithSalt, hor, hnone, hpw, Bool.false_eq_true, if_false]
  · simp only [decryptText, hor, hnone, hpw, Bool.false_eq_true, if_false]

/-- Instance of the amended C7 statement at the lower-cased default name. -/
theorem algorithm_lookup_exact_witness :
    ("pbewithmd5anddes".data ≠ ([] : Text)) ∧
    ("pbewithmd5anddes".data ≠ "PBEWithMD5AndDES".data) ∧
    ("pbewithmd5anddes".data ≠ "PBEWithMD5AndTripleDES".data) ∧
    ("pbewithmd5anddes".data ≠ "PBEWithSHA1AndDESede".data) ∧
    jasyptInit (some "p".data) (some "pbewithmd5anddes".data) none
      = .error (.unknownAlgorithm "pbewithmd5anddes".data) ∧
    decryptText ⟨some "p".data, "PBEWithMD5AndDES".data, 1000⟩ "AAE=".data
      none (some "pbewithmd5anddes".data)
      = some (.error (.unknownAlgorithm "pbewithmd5anddes".data)) :=
  ⟨by decide, by decide, by decide, by decide,
    (algorithm_lookup_exact "pbewithmd5anddes".data
      (by decide) (by decide) (by decide) (by decide)).1
      (some "p".data) none,
    (algorithm_lookup_exact "pbewithmd5anddes".data
      (by decide) (by decide) (by decide) (by decide)).2.2
      ⟨some "p".data, "PBEWithMD5AndDES".data, 1000⟩ "AAE=".data none
      (by decide)⟩

/-! ## ENC(...) envelope (claim C8) -/

/-- Claim C8: `encrypt_config_value` produces exactly
`ENC( ++ token ++ )`, `decrypt_config_value` strips the wrapper exactly
when the value starts with `ENC(` and ends with `)` and otherwise passes the
value through unchanged; unwrapping a wrapped token recovers the token, and
decrypting a successfully produced configuration value recovers the
plaintext. -/
theorem envelope_roundtrip (cfg : JasyptConfig) (salt : Bytes) (p v : Text)
    (hsalt : salt.length = 8) (hsok : bytesOk salt)
    (henc : encrypt_config_value cfg salt p = some (.ok v)) :
    (∀ t : Text, unwrapEnvelope ("ENC(".data ++ t ++ ")".data) = t) ∧
    (∀ t : Text, ¬("ENC(".data.isPrefixOf t ∧ ")".data.isSuffixOf t) →
      unwrapEnvelope t = t) ∧
    (∀ t : Text, decrypt_config_value cfg t
      = decryptText cfg (unwrapEnvelope t) none none) ∧
    decrypt_config_value cfg v = some (.ok p) := by
  have hunwrap : ∀ t : Text,
      unwrapEnvelope ("ENC(".data ++ t ++ ")".data) = t := by
    intro t
    unfold unwrapEnvelope
    rw [if_pos]
    · rw [List.append_assoc,
        List.drop_left' (show ("ENC(".data : Text).length = 4 from rfl),
        show (")".data : Text) = [')'] from rfl]
      exact List.dropLast_concat ..
    · constructor
      · show ("ENC(".data.isPrefixOf ("ENC(".data ++ t ++ ")".data)) = true
        rw [show ("ENC(".data : Text) = ['E', 'N', 'C', '('] from rfl]
        simp [List.isPrefixOf, List.cons_append]
      · show (")".data.isSuffixOf ("ENC(".data ++ t ++ ")".data)) = true
        rw [List.append_assoc, show (")".data : Text) = [')'] from rfl]
        simp [List.isSuffixOf, List.isPrefixOf, List.reverse_append]
  refine ⟨hunwrap, fun t ht => ?_, fun t => rfl, ?_⟩
  · unfold unwrapEnvelope
    rw [if_neg ht]
  · unfold encrypt_config_value at henc
    cases he : encryptWithSalt cfg salt p none none with
    | none => rw [he] at henc; exact Option.noConfusion henc
    | some r =>
      rw [he] at henc
      cases r with
      | error e => exact absurd (Option.some.inj henc) (by simp)
      | ok t =>
        dsimp only at henc
        have hv : v = "ENC(".data ++ t ++ ")".data :=
          (Except.ok.inj (Option.some.inj henc)).symm
        unfold decrypt_config_value
        rw [hv, hunwrap]
        exact encrypt_decrypt_roundtrip cfg salt p none none t hsalt hsok he

/-- Instance of C8 at a concrete configuration value. -/
theorem envelope_roundtrip_witness :
    ([0, 1, 2, 3, 4, 5, 6, 7] : Bytes).length = 8 ∧
    bytesOk [0, 1, 2, 3, 4, 5, 6, 7] ∧
    encrypt_config_value ⟨some "p".data, "PBEWithMD5AndDES".data, 1⟩
      [0, 1, 2, 3, 4, 5, 6, 7] "hi".data
      = some (.ok "ENC(AAECAwQFBgdSEb83hSHs4A==)".data) ∧
    unwrapEnvelope ("ENC(".data ++ "tok".data ++ ")".data) = "tok".data ∧
    decrypt_config_value ⟨some "p".data, "PBEWithMD5AndDES".data, 1⟩
      "ENC(AAECAwQFBgdSEb83hSHs4A==)".data = some (.ok "hi".data) :=
  ⟨by decide, by decide, by decide!,
    (envelope_roundtrip ⟨some "p".data, "PBEWithMD5AndDES".data, 1⟩
      [0, 1, 2, 3, 4, 5, 6, 7] "hi".data
      "ENC(AAECAwQFBgdSEb83hSHs4A==)".data
      (by decide) (by decide) (by decide!)).1 "tok".data,
    (envelope_roundtrip ⟨some "p".data, "PBEWithMD5AndDES".data, 1⟩
      [0, 1, 2, 3, 4, 5, 6, 7] "hi".data
      "ENC(AAECAwQFBgdSEb83hSHs4A==)".data
      (by decide) (by decide) (by decide!)).2.2.2⟩

/-! ## Password fallback (claim C10) -/

theorem decryptPost_ne_missing (config : AlgoConfig) (key iv ct : Bytes) :
    decryptPost config key iv ct ≠ .error .missingPassword := by
  unfold decryptPost
  split
  · simp
  · split
    · simp
    · split
      · simp
      · split <;> simp

/-- Claim C10: a per-call password that is `None` or the empty string is
silently replaced by the instance password in both encrypt and decrypt;
the missing-password error is raised exactly when the resulting effective
password is also `None` or empty; and a truthy effective password is always
a non-empty string, so the empty string can never actually be used as the
working password. -/
theorem password_fallback (cfg : JasyptConfig) (salt : Bytes)
    (p tok : Text) (algorithm : Option Text) :
    (∀ pw, textFalsy pw = true →
      encryptWithSalt cfg salt p pw algorithm
        = encryptWithSalt cfg salt p cfg.password algorithm ∧
      decryptText cfg tok pw algorithm
        = decryptText cfg tok cfg.password algorithm) ∧
    (∀ pw, textFalsy (orText pw cfg.password) = true →
      encryptWithSalt cfg salt p pw algorithm
        = some (.error .missingPassword) ∧
      decryptText cfg tok pw algorithm
        = some (.error .missingPassword)) ∧
    (∀ pw, textFalsy (orText pw cfg.password) = false →
      encryptWithSalt cfg salt p pw algorithm
        ≠ some (.error .missingPassword) ∧
      decryptText cfg tok pw algorithm
        ≠ some (.error .missingPassword)) ∧
    (∀ pw s, orText pw cfg.password = some s →
      textFalsy (orText pw cfg.password) = false → s ≠ []) := by
  have horx : ∀ x : Option Text, orText x x = x := by
    intro x
    cases x with
    | none => rfl
    | some s =>
      simp only [orText]
      split <;> rfl
  have hfalsy : ∀ pw, textFalsy pw = true →
      orText pw cfg.password = orText cfg.password cfg.password := by
    intro pw hpw
    cases pw with
    | none => exact (horx cfg.password).symm
    | some s =>
      have hs : s = [] := by
        simpa [textFalsy, List.isEmpty_iff] using hpw
      subst hs
      simp only [orText, if_pos rfl]
      exact (horx _).symm
  refine ⟨fun pw hpw => ?_, fun pw hpw => ?_, fun pw hpw => ?_,
    fun pw s hor hfal => ?_⟩
  · have h := hfalsy pw hpw
    constructor
    · unfold encryptWithSalt
      rw [h]
    · unfold decryptText
      rw [h]
  · constructor
    · unfold encryptWithSalt
      rw [if_pos hpw]
    · unfold decryptText
      rw [if_pos hpw]
  · constructor
    · unfold encryptWithSalt
      rw [if_neg (by simp [hpw])]
      split
      · simp
      · split
        · simp
        · split
          · simp
          · split <;> simp
    · unfold decryptText
      rw [if_neg (by simp [hpw])]
      dsimp only
      split
      · simp
      · split
        · simp
        · split
          · simp
          · simp only [ne_eq, Option.some.injEq]
            exact fun hc => decryptPost_ne_missing _ _ _ _ hc
  · rw [hor] at hfal
    simpa [textFalsy, List.isEmpty_iff] using hfal

/-- Instance of C10 at a concrete configuration with no instance password. -/
theorem password_fallback_witness :
    textFalsy (some ([] : Text)) = true ∧
    encryptWithSalt ⟨none, "PBEWithMD5AndDES".data, 1000⟩ [0] "hi".data
      (some []) none
      = encryptWithSalt ⟨none, "PBEWithMD5AndDES".data, 1000⟩ [0] "hi".data
        none none ∧
    textFalsy (orText (some []) none) = true ∧
    decryptText ⟨none, "PBEWithMD5AndDES".data, 1000⟩ "AAE=".data
      (some []) none
      = some (.error .missingPassword) :=
  ⟨by decide,
    ((password_fallback ⟨none, "PBEWithMD5AndDES".data, 1000⟩ [0] "hi".data
      "AAE=".data none).1 (some []) (by decide)).1,
    by decide,
    ((password_fallback ⟨none, "PBEWithMD5AndDES".data, 1000⟩ [0] "hi".data
      "AAE=".data none).2.1 (some []) (by decide)).2⟩

end Jasypt
